import Mathlib

/-!
Verification development for the Data-Privacy-Protector repository.

The source is embedded shallowly:
* `detectors.py` — a small executable regex engine (`Regex`, `ends`, `finditer`)
  models Python `re` pattern matching with backtracking priority order,
  `IGNORECASE` baked into the transcribed character classes, and `\b` word
  boundaries; `detectWith` models `RegexDetector.detect`.
* `generators.py` — `generate` models `FakeDataGenerator.generate` with the
  external Faker library abstracted as a record of deterministic draw
  functions over an opaque RNG state (`FakerOps`).
* `protector.py` — `anonymizeWithReport` models
  `PrivacyProtector.anonymize_with_report` for the default (regex-only)
  configuration.

Text is modelled as a list of Unicode code points (`Txt`).
-/

abbrev Txt := List Nat

/-- Code points of a string literal, for stating concrete examples. -/
def codes (s : String) : Txt := s.toList.map Char.toNat

/-- Character classes, first-order so that case-insensitivity is decidable. -/
inductive CCls where
  | rng (lo hi : Nat)
  | one (c : Nat)
  | un (a b : CCls)
deriving DecidableEq, Repr

def CCls.mem : CCls → Nat → Bool
  | .rng lo hi, n => decide (lo ≤ n) && decide (n ≤ hi)
  | .one c, n => decide (n = c)
  | .un a b, n => a.mem n || b.mem n

def digitC : CCls := .rng 48 57

def upperC : CCls := .rng 65 90

def lowerC : CCls := .rng 97 122

def letterC : CCls := .un upperC lowerC

/-- Python `\s` over ASCII: space, tab, newline, vertical tab, form feed, CR. -/
def wsC : CCls := .un (.one 32) (.rng 9 13)

def unions : List CCls → CCls := fun l => l.foldr .un (.rng 1 0)

/-- Python `\w` (ASCII fragment): letters, digits, underscore. -/
def wordCharB (n : Nat) : Bool := CCls.mem letterC n || CCls.mem digitC n || decide (n = 95)

/-- Regex abstract syntax (post-parse), covering the constructs the
repository's patterns use.  `rep r lo hi` is `r{lo,hi}` (`hi = none` means
unbounded); `wordB` is `\b`. -/
inductive Regex where
  | eps
  | cls (c : CCls)
  | wordB
  | seq (a b : Regex)
  | alt (a b : Regex)
  | rep (r : Regex) (lo : Nat) (hi : Option Nat)
deriving DecidableEq, Repr

def seqs : List Regex → Regex := fun l => l.foldr .seq .eps

def chC (n : Nat) : Regex := .cls (.one n)

/-- A case-insensitive literal character (used for `re.IGNORECASE` literals). -/
def litIC (s : String) : Regex :=
  seqs (s.toList.map (fun c => Regex.cls (.un (.one c.toLower.toNat) (.one c.toUpper.toNat))))

def wordAt (text : Txt) (i : Nat) : Bool :=
  match text.get? i with
  | some c => wordCharB c
  | none => false

/-- Python `\b`: word-ness differs between the previous character and the
current one (positions outside the text count as non-word). -/
def isWordBoundary (text : Txt) (p : Nat) : Bool :=
  (if p = 0 then false else wordAt text (p - 1)) != wordAt text p

/-- All ends of up-to-`h` further repetitions of a body with `lo` of them still
mandatory, in greedy (maximal-first) backtracking priority order. -/
def repB (f : Nat → List Nat) : Nat → Nat → Nat → List Nat
  | 0, lo, p => if lo = 0 then [p] else []
  | h + 1, lo, p =>
    if lo = 0 then ((f p).flatMap (repB f h 0)) ++ [p]
    else (f p).flatMap (repB f h (lo - 1))

/-- Unbounded repetition (the tail of `+`, `*`, `{n,}`), greedy order.  A
repetition step must make progress, mirroring the engine's empty-match rule. -/
def starE (f : Nat → List Nat) : Nat → Nat → List Nat
  | 0, p => [p]
  | fuel + 1, p => (((f p).filter (fun q => p < q)).flatMap (starE f fuel)) ++ [p]

/-- All positions where a match of `r` starting at `p` can end, listed in the
backtracking engine's priority order (the head is the end Python `re` picks). -/
def ends (text : Txt) : Regex → Nat → List Nat
  | .eps, p => [p]
  | .cls c, p =>
    match text.get? p with
    | some ch => if c.mem ch then [p + 1] else []
    | none => []
  | .wordB, p => if isWordBoundary text p then [p] else []
  | .seq a b, p => (ends text a p).flatMap (ends text b)
  | .alt a b, p => ends text a p ++ ends text b p
  | .rep r lo hi, p =>
    match hi with
    | some h => repB (ends text r) h lo p
    | none => (repB (ends text r) lo lo p).flatMap
        (fun q => starE (ends text r) (text.length + 1) q)

/-- Minimum number of characters any match of `r` consumes. -/
def Regex.minLen : Regex → Nat
  | .eps => 0
  | .cls _ => 1
  | .wordB => 0
  | .seq a b => a.minLen + b.minLen
  | .alt a b => min a.minLen b.minLen
  | .rep r lo _ => lo * r.minLen

/-- One scanning pass of `re.finditer`: at each position try a match; on
success emit it and resume at its end (advancing by one after an empty
match), otherwise advance by one. -/
def scanPos (f : Nat → List Nat) (len : Nat) : Nat → Nat → List (Nat × Nat)
  | 0, _ => []
  | fuel + 1, p =>
    if p ≤ len then
      match (f p).head? with
      | some e => (p, e) :: scanPos f len fuel (if p < e then e else p + 1)
      | none => scanPos f len fuel (p + 1)
    else []

def finditer (text : Txt) (r : Regex) : List (Nat × Nat) :=
  scanPos (ends text r) text.length (text.length + 2) 0

/-! ## PII data model and detection catalog (detectors.py) -/

/-- `PIIType` enumeration from `detectors.py`. -/
inductive PIIType where
  | email
  | phone
  | ssn
  | credit_card
  | ip_address
  | date
  | address
  | passport
  | driver_license
  | bank_account
  | person_name
  | custom
deriving DecidableEq, Repr

/-- `PIIMatch` dataclass.  `stop` models the Python field `end` (a Lean
keyword); `value` is a code-point list; `confidence` is in hundredths
(the source's two-decimal float literals scaled by 100). -/
structure PIIMatch where
  pii_type : PIIType
  value : Txt
  start : Nat
  stop : Nat
  confidence : Nat
deriving DecidableEq, Repr

/-- Separator class `[-.\s]` used in the phone patterns. -/
def sepDotC : CCls := unions [.one 45, .one 46, wsC]

/-- Separator class `[-\s]` used in the SSN / card patterns. -/
def sepC : CCls := .un (.one 45) wsC

/-- Dash-or-slash separator class used in the date patterns. -/
def dateSepC : CCls := .un (.one 45) (.one 47)

/-- `[A-Za-z0-9._%+-]` (email local part). -/
def emailLocalC : CCls := unions [letterC, digitC, .one 46, .one 95, .one 37, .one 43, .one 45]

/-- `[A-Za-z0-9.-]` (email domain). -/
def emailDomC : CCls := unions [letterC, digitC, .one 46, .one 45]

/-- `[A-Z|a-z]` (email TLD; the literal `|` is part of the class in the source). -/
def emailTldC : CCls := unions [upperC, lowerC, .one 124]

/-- `[0-9a-fA-F]` hex digits. -/
def hexC : CCls := unions [digitC, .rng 97 102, .rng 65 70]

/-- `[A-Z0-9]` with `re.IGNORECASE`: any letter or digit. -/
def alnumIC : CCls := .un letterC digitC

def qm (r : Regex) : Regex := .rep r 0 (some 1)

def repN (c : CCls) (lo hi : Nat) : Regex := .rep (.cls c) lo (some hi)

/-- Email: `\b[A-Za-z0-9._%+-]+@[A-Za-z0-9.-]+\.[A-Z|a-z]{2,}\b`. -/
def emailRe : Regex := seqs [.wordB, .rep (.cls emailLocalC) 1 none, chC 64,
  .rep (.cls emailDomC) 1 none, chC 46, .rep (.cls emailTldC) 2 none, .wordB]

/-- US phone: `\b\+?1?[-.\s]?\(?[0-9]{3}\)?[-.\s]?[0-9]{3}[-.\s]?[0-9]{4}\b`. -/
def phoneUsRe : Regex := seqs [.wordB, qm (chC 43), qm (chC 49), qm (.cls sepDotC),
  qm (chC 40), repN digitC 3 3, qm (chC 41), qm (.cls sepDotC), repN digitC 3 3,
  qm (.cls sepDotC), repN digitC 4 4, .wordB]

/-- International phone: `\b\+[1-9]\d{1,14}\b`. -/
def phoneIntlRe : Regex := seqs [.wordB, chC 43, .cls (.rng 49 57), repN digitC 1 14, .wordB]

/-- Israeli phone: `\b0[2-9]\d{7,8}\b`. -/
def phoneIlRe : Regex := seqs [.wordB, chC 48, .cls (.rng 50 57), repN digitC 7 8, .wordB]

/-- Israeli intl phone: `\b\+972[-.\s]?[0-9]{1,2}[-.\s]?[0-9]{3}[-.\s]?[0-9]{4}\b`. -/
def phoneIl2Re : Regex := seqs [.wordB, chC 43, chC 57, chC 55, chC 50,
  qm (.cls sepDotC), repN digitC 1 2, qm (.cls sepDotC), repN digitC 3 3,
  qm (.cls sepDotC), repN digitC 4 4, .wordB]

/-- SSN: `\b\d{3}[-\s]?\d{2}[-\s]?\d{4}\b`. -/
def ssnRe : Regex := seqs [.wordB, repN digitC 3 3, qm (.cls sepC), repN digitC 2 2,
  qm (.cls sepC), repN digitC 4 4, .wordB]

/-- Visa: `\b4[0-9]{3}[-\s]?[0-9]{4}[-\s]?[0-9]{4}[-\s]?[0-9]{4}\b`. -/
def visaRe : Regex := seqs [.wordB, chC 52, repN digitC 3 3, qm (.cls sepC),
  repN digitC 4 4, qm (.cls sepC), repN digitC 4 4, qm (.cls sepC), repN digitC 4 4, .wordB]

/-- Mastercard: `\b5[1-5][0-9]{2}[-\s]?[0-9]{4}[-\s]?[0-9]{4}[-\s]?[0-9]{4}\b`. -/
def mcRe : Regex := seqs [.wordB, chC 53, .cls (.rng 49 53), repN digitC 2 2,
  qm (.cls sepC), repN digitC 4 4, qm (.cls sepC), repN digitC 4 4, qm (.cls sepC),
  repN digitC 4 4, .wordB]

/-- Amex: `\b3[47][0-9]{2}[-\s]?[0-9]{6}[-\s]?[0-9]{5}\b`. -/
def amexRe : Regex := seqs [.wordB, chC 51, .cls (.un (.one 52) (.one 55)),
  repN digitC 2 2, qm (.cls sepC), repN digitC 6 6, qm (.cls sepC), repN digitC 5 5, .wordB]

/-- Generic 16-digit card: `\b[0-9]{4}[-\s]?[0-9]{4}[-\s]?[0-9]{4}[-\s]?[0-9]{4}\b`. -/
def cc16Re : Regex := seqs [.wordB, repN digitC 4 4, qm (.cls sepC), repN digitC 4 4,
  qm (.cls sepC), repN digitC 4 4, qm (.cls sepC), repN digitC 4 4, .wordB]

/-- One IPv4 octet: `25[0-5]|2[0-4][0-9]|[01]?[0-9][0-9]?`. -/
def octetRe : Regex :=
  .alt (seqs [chC 50, chC 53, .cls (.rng 48 53)])
    (.alt (seqs [chC 50, .cls (.rng 48 52), .cls digitC])
      (seqs [qm (.cls (.un (.one 48) (.one 49))), .cls digitC, qm (.cls digitC)]))

/-- IPv4: `\b(?:(?:...)\.){3}(?:...)\b`. -/
def ipv4Re : Regex := seqs [.wordB, .rep (.seq octetRe (chC 46)) 3 (some 3), octetRe, .wordB]

/-- IPv6 (simplified): `\b(?:[0-9a-fA-F]{1,4}:){7}[0-9a-fA-F]{1,4}\b`. -/
def ipv6Re : Regex := seqs [.wordB, .rep (.seq (repN hexC 1 4) (chC 58)) 7 (some 7),
  repN hexC 1 4, .wordB]

/-- ISO date: backslash-b d{4} sep d{2} sep d{2} backslash-b with sep = dash or slash. -/
def dateIsoRe : Regex := seqs [.wordB, repN digitC 4 4, .cls dateSepC, repN digitC 2 2,
  .cls dateSepC, repN digitC 2 2, .wordB]

/-- US date: backslash-b d{1,2} sep d{1,2} sep d{2,4} backslash-b with sep = dash or slash. -/
def dateUsRe : Regex := seqs [.wordB, repN digitC 1 2, .cls dateSepC, repN digitC 1 2,
  .cls dateSepC, repN digitC 2 4, .wordB]

/-- Month-name alternation of the written date pattern (IGNORECASE). -/
def monthsRe : Regex :=
  [litIC "Feb", litIC "Mar", litIC "Apr", litIC "May", litIC "Jun", litIC "Jul",
   litIC "Aug", litIC "Sep", litIC "Oct", litIC "Nov", litIC "Dec"].foldl .alt (litIC "Jan")

/-- Written date: `\b(?:Jan|...|Dec)[a-z]*\.?\s+\d{1,2},?\s+\d{4}\b` (IGNORECASE,
so `[a-z]` matches any letter). -/
def dateWrittenRe : Regex := seqs [.wordB, monthsRe, .rep (.cls letterC) 0 none,
  qm (chC 46), .rep (.cls wsC) 1 none, repN digitC 1 2, qm (chC 44),
  .rep (.cls wsC) 1 none, repN digitC 4 4, .wordB]

/-- Passport: `\b[A-Z]{1,2}[0-9]{6,9}\b` (IGNORECASE). -/
def passportRe : Regex := seqs [.wordB, repN letterC 1 2, repN digitC 6 9, .wordB]

/-- Driver license: `\b[A-Z]{1,2}[0-9]{5,8}\b` (IGNORECASE). -/
def dlRe : Regex := seqs [.wordB, repN letterC 1 2, repN digitC 5 8, .wordB]

/-- IBAN: `\b[A-Z]{2}[0-9]{2}[A-Z0-9]{4}[0-9]{7}([A-Z0-9]?){0,16}\b` (IGNORECASE). -/
def ibanRe : Regex := seqs [.wordB, repN letterC 2 2, repN digitC 2 2, repN alnumIC 4 4,
  repN digitC 7 7, .rep (qm (.cls alnumIC)) 0 (some 16), .wordB]

/-- Generic account number: `\b[0-9]{8,17}\b`. -/
def bankNumRe : Regex := seqs [.wordB, repN digitC 8 17, .wordB]

abbrev Catalog := List (PIIType × List (Regex × Nat))

/-- `RegexDetector.PATTERNS`, in dict insertion order, confidences in
hundredths (0.99 becomes 99, and so on). -/
def PATTERNS : Catalog := [
  (.email, [(emailRe, 99)]),
  (.phone, [(phoneUsRe, 95), (phoneIntlRe, 90), (phoneIlRe, 90), (phoneIl2Re, 95)]),
  (.ssn, [(ssnRe, 95)]),
  (.credit_card, [(visaRe, 98), (mcRe, 98), (amexRe, 98), (cc16Re, 85)]),
  (.ip_address, [(ipv4Re, 99), (ipv6Re, 99)]),
  (.date, [(dateIsoRe, 90), (dateUsRe, 85), (dateWrittenRe, 90)]),
  (.passport, [(passportRe, 70)]),
  (.driver_license, [(dlRe, 60)]),
  (.bank_account, [(ibanRe, 95), (bankNumRe, 50)])]

/-- Python `enabled_types or list(self.PATTERNS.keys())`: both `None` and the
empty list are falsy and fall back to all catalog keys. -/
def pyOrDefault (l : Option (List PIIType)) : List PIIType :=
  match l with
  | none => PATTERNS.map Prod.fst
  | some [] => PATTERNS.map Prod.fst
  | some l => l

/-- `_compile_patterns`: keep the enabled types that have catalog entries. -/
def compilePatterns (enabled : List PIIType) : Catalog :=
  enabled.filterMap (fun t => (PATTERNS.lookup t).map (fun ps => (t, ps)))

/-- `RegexDetector.__init__`. -/
def mkDetector (enabled : Option (List PIIType)) : Catalog :=
  compilePatterns (pyOrDefault enabled)

/-- `RegexDetector._spans_overlap` on half-open spans. -/
def spansOverlapB (a b : Nat × Nat) : Bool :=
  !(decide (a.2 ≤ b.1) || decide (b.2 ≤ a.1))

/-- The raw hits of `detect`'s nested loops, in scanning order: catalog order,
then rule order, then `finditer` order. -/
def candidatesFor (text : Txt) (cat : Catalog) : List PIIMatch :=
  cat.flatMap (fun tp => tp.2.flatMap (fun rc =>
    (finditer text rc.1).map (fun se =>
      ⟨tp.1, (text.drop se.1).take (se.2 - se.1), se.1, se.2, rc.2⟩)))

/-- One step of the accept loop: drop the hit if it overlaps an accepted span. -/
def resolveStep (st : List PIIMatch × List (Nat × Nat)) (c : PIIMatch) :
    List PIIMatch × List (Nat × Nat) :=
  if st.2.any (fun sp => spansOverlapB (c.start, c.stop) sp) then st
  else (st.1 ++ [c], st.2 ++ [(c.start, c.stop)])

def ascStart (a b : PIIMatch) : Prop := a.start ≤ b.start

instance : DecidableRel ascStart := fun a b => Nat.decLe a.start b.start

instance : IsTotal PIIMatch ascStart := ⟨fun a b => Nat.le_total a.start b.start⟩

instance : IsTrans PIIMatch ascStart := ⟨fun _ _ _ h1 h2 => Nat.le_trans h1 h2⟩

/-- `RegexDetector.detect`: accept non-overlapping hits first-come-first-served,
then sort by start position. -/
def detectWith (cat : Catalog) (text : Txt) : List PIIMatch :=
  List.insertionSort ascStart ((candidatesFor text cat).foldl resolveStep ([], [])).1

/-- Detection with the default (all-types) detector. -/
def detectDefault (text : Txt) : List PIIMatch := detectWith (mkDetector none) text

/-- Two matches whose half-open spans do not overlap. -/
def NoOv (a b : PIIMatch) : Prop :=
  spansOverlapB (a.start, a.stop) (b.start, b.stop) = false

def spanOf (m : PIIMatch) : Nat × Nat := (m.start, m.stop)

/-! ## Custom rules and registration-time compilation (C8, C9) -/

/-- The error raised when a supplied detection pattern fails to compile
(Python `re.error`, the spec's `PatternError`). -/
inductive PatternError where
  | patternError
deriving DecidableEq, Repr

/-- Pattern validity: a counted repetition must have `lo ≤ hi` (Python
`re.error`: "min repeat greater than max repeat"). -/
def Regex.wellFormed : Regex → Bool
  | .eps => true
  | .cls _ => true
  | .wordB => true
  | .seq a b => a.wellFormed && b.wellFormed
  | .alt a b => a.wellFormed && b.wellFormed
  | .rep r lo hi =>
    (match hi with
     | some h => decide (lo ≤ h)
     | none => true) && r.wellFormed

/-- `re.compile`: rejects an invalid pattern at compile time. -/
def compileRe (r : Regex) : Except PatternError Regex :=
  if r.wellFormed then .ok r else .error .patternError

/-- Compile a category's rule list, stopping at the first failure. -/
def compileRules : List (Regex × Nat) → Except PatternError (List (Regex × Nat))
  | [] => .ok []
  | rc :: rest =>
    match compileRe rc.1 with
    | .error e => .error e
    | .ok r0 => (compileRules rest).map (fun rs => (r0, rc.2) :: rs)

/-- Catalog construction (`_compile_patterns`): compile every supplied
pattern, raising `PatternError` on the first invalid one. -/
def buildCatalog : Catalog → Except PatternError Catalog
  | [] => .ok []
  | tp :: rest =>
    match compileRules tp.2 with
    | .error e => .error e
    | .ok ps => (buildCatalog rest).map (fun cs => (tp.1, ps) :: cs)

/-- The catalog update done by `add_custom_pattern`: append the rule to the
`custom` category (creating it at the end on first use). -/
def addCustomRegex (cat : Catalog) (r : Regex) (conf : Nat) : Catalog :=
  if cat.any (fun tp => tp.1 == PIIType.custom) then
    cat.map (fun tp => if tp.1 == PIIType.custom then (tp.1, tp.2 ++ [(r, conf)]) else tp)
  else cat ++ [(PIIType.custom, [(r, conf)])]

/-- `add_custom_pattern`: `re.compile(pattern)` runs at registration time, so
an invalid pattern raises there. -/
def addCustomPattern (cat : Catalog) (r : Regex) (conf : Nat) :
    Except PatternError Catalog :=
  (compileRe r).map (fun r0 => addCustomRegex cat r0 conf)

/-- Detection as it would behave if pattern compilation were deferred to
detect time (the behaviour the spec rules out). -/
def rawDetect (raw : Catalog) (text : Txt) : Except PatternError (List PIIMatch) :=
  (buildCatalog raw).map (fun cat => detectWith cat text)

/-- The custom literal pattern `QZX`, compiled as the source does — without
`re.IGNORECASE`, hence case-sensitive. -/
def qzxRe : Regex := seqs [chC 81, chC 90, chC 88]

/-! ## Category priority on overlapping spans (C5) -/

/-- A bare 16-digit run starting with `4`, delimited by word boundaries
(the claim's "Visa-shaped number"). -/
def visaRunAt (text : Txt) (s : Nat) : Bool :=
  isWordBoundary text s && isWordBoundary text (s + 16) &&
    (List.range 16).all (fun i => (text.get? (s + i)).any (fun c => CCls.mem digitC c)) &&
    (text.get? s).any (fun c => decide (c = 52))

/-! ## Fake-data generator (generators.py) -/

/-- The external Faker library and `hashlib.md5`, abstracted as deterministic
draw functions over an opaque RNG state (a `Nat`).  Each draw returns the
drawn value together with the successor state; `seedState` models
`seed_instance`, `hashSeed` models the md5-derived integer seed. -/
structure FakerOps where
  hashSeed : Txt → Nat
  seedState : Nat → Nat
  emailDraw : Nat → Txt × Nat
  phoneDraw : Nat → Txt × Nat
  ssnDraw : Nat → Txt × Nat
  ccDraw : Nat → Txt × Nat
  ipv4Draw : Nat → Txt × Nat
  ipv6Draw : Nat → Txt × Nat
  dateDraw : Nat → (Nat × Nat × Nat) × Nat
  addressDraw : Nat → Txt × Nat
  randomInt : Nat → Nat → Nat → Nat × Nat
  randomDigit : Nat → Nat × Nat
  firstNameDraw : Nat → Txt × Nat
  lastNameDraw : Nat → Txt × Nat
  fullNameDraw : Nat → Txt × Nat
  ibanDraw : Nat → Txt × Nat

/-- The generator's mutable state: the consistency flag, the value cache
(`_cache`, newest entry first) and the faker RNG state. -/
structure GenState where
  consistent : Bool
  cache : List (Txt × Txt)
  fstate : Nat
deriving DecidableEq, Repr

/-- Decimal digit codes of `n` (structural fuel so that it computes in the
kernel). -/
def natDigitsAux : Nat → Nat → Txt
  | 0, _ => []
  | fuel + 1, n => if n < 10 then [48 + n] else natDigitsAux fuel (n / 10) ++ [48 + n % 10]

def natDigits (n : Nat) : Txt := natDigitsAux (n + 1) n

/-- Left-pad with zeros to width `k` (the behaviour of `%m`, `%d`, `%Y`). -/
def zpad (k : Nat) (l : Txt) : Txt := List.replicate (k - l.length) 48 ++ l

def isLetterCode (c : Nat) : Bool := CCls.mem letterC c

def isDigitCode (c : Nat) : Bool := CCls.mem digitC c

/-- `strftime` month/day/year with slashes. -/
def fmtMDY (y m d : Nat) : Txt :=
  zpad 2 (natDigits m) ++ [47] ++ zpad 2 (natDigits d) ++ [47] ++ zpad 4 (natDigits y)

/-- `strftime` year/month/day with slashes. -/
def fmtYMD (y m d : Nat) : Txt :=
  zpad 4 (natDigits y) ++ [47] ++ zpad 2 (natDigits m) ++ [47] ++ zpad 2 (natDigits d)

/-- `strftime` ISO date with dashes. -/
def fmtYMDdash (y m d : Nat) : Txt :=
  zpad 4 (natDigits y) ++ [45] ++ zpad 2 (natDigits m) ++ [45] ++ zpad 2 (natDigits d)

def monthName (m : Nat) : Txt :=
  match m with
  | 1 => codes ("January")
  | 2 => codes ("February")
  | 3 => codes ("March")
  | 4 => codes ("April")
  | 5 => codes ("May")
  | 6 => codes ("June")
  | 7 => codes ("July")
  | 8 => codes ("August")
  | 9 => codes ("September")
  | 10 => codes ("October")
  | 11 => codes ("November")
  | 12 => codes ("December")
  | _ => []

/-- `strftime` written format `%B %d, %Y`. -/
def fmtWritten (y m d : Nat) : Txt :=
  monthName m ++ [32] ++ zpad 2 (natDigits d) ++ [44, 32] ++ zpad 4 (natDigits y)

/-- Index of the first occurrence of code `c` (Python `str.index`, used only
under a membership guard). -/
def firstIdx (v : Txt) (c : Nat) : Nat := v.findIdx (fun x => x == c)

/-- `_generate_phone`. -/
def genPhone (ops : FakerOps) (fs : Nat) (v : Txt) : Txt × Nat :=
  if v.take 4 = codes ("+972") then
    let (a, fs1) := ops.randomInt 50 59 fs
    let (b, fs2) := ops.randomInt 100 999 fs1
    let (c, fs3) := ops.randomInt 1000 9999 fs2
    (codes ("+972-") ++ natDigits a ++ [45] ++ natDigits b ++ [45] ++ natDigits c, fs3)
  else if v.take 2 = codes ("+1") ∨ v.take 1 = codes ("1") then
    ops.phoneDraw fs
  else if 40 ∈ v then
    let (a, fs1) := ops.randomInt 200 999 fs
    let (b, fs2) := ops.randomInt 100 999 fs1
    let (c, fs3) := ops.randomInt 1000 9999 fs2
    ([40] ++ natDigits a ++ [41, 32] ++ natDigits b ++ [45] ++ natDigits c, fs3)
  else
    ops.phoneDraw fs

/-- `_generate_ssn`: strip dashes when the original has none. -/
def genSsn (ops : FakerOps) (fs : Nat) (v : Txt) : Txt × Nat :=
  let (s, fs1) := ops.ssnDraw fs
  if 45 ∈ v then (s, fs1) else (s.filter (fun c => !(c == 45)), fs1)

/-- The 4-digit groups `cc[i:i+4]` for `i in range(0, 16, 4)`. -/
def group4 (cc : Txt) : List Txt :=
  [cc.take 4, (cc.drop 4).take 4, (cc.drop 8).take 4, (cc.drop 12).take 4]

/-- `_generate_credit_card`: re-apply the original's separator. -/
def genCreditCard (ops : FakerOps) (fs : Nat) (v : Txt) : Txt × Nat :=
  let (cc, fs1) := ops.ccDraw fs
  if 45 ∈ v then (List.intercalate [45] (group4 cc), fs1)
  else if 32 ∈ v then (List.intercalate [32] (group4 cc), fs1)
  else (cc, fs1)

/-- `_generate_ip`: branch on a colon. -/
def genIp (ops : FakerOps) (fs : Nat) (v : Txt) : Txt × Nat :=
  if 58 ∈ v then ops.ipv6Draw fs else ops.ipv4Draw fs

/-- `_generate_date`: reproduce the original's separator convention; for
slash-separated originals the layout is month-first exactly when the first
slash appears before index 3. -/
def genDate (ops : FakerOps) (fs : Nat) (v : Txt) : Txt × Nat :=
  let ((y, m, d), fs1) := ops.dateDraw fs
  if 47 ∈ v then
    if firstIdx v 47 < 3 then (fmtMDY y m d, fs1) else (fmtYMD y m d, fs1)
  else if 45 ∈ v then (fmtYMDdash y m d, fs1)
  else (fmtWritten y m d, fs1)

/-- `_generate_address`: collapse newlines to comma-space. -/
def genAddress (ops : FakerOps) (fs : Nat) (v : Txt) : Txt × Nat :=
  let (a, fs1) := ops.addressDraw fs
  (a.flatMap (fun c => if c = 10 then [44, 32] else [c]), fs1)

/-- `_generate_passport`: keep the alphabetic characters, redraw the digits.
When the original has no digits, Python evaluates `10 ** (0 - 1)` to the
float `0.1` and `random_int` then raises `ValueError` — modelled as an
error. -/
def genPassport (ops : FakerOps) (fs : Nat) (v : Txt) : Except Unit Txt × Nat :=
  let ap := v.filter isLetterCode
  let nd := (v.filter isDigitCode).length
  if nd = 0 then (.error (), fs)
  else
    let (x, fs1) := ops.randomInt (10 ^ (nd - 1)) (10 ^ nd - 1) fs
    (.ok (ap ++ natDigits x), fs1)

/-- Draw `n` random digits and concatenate their decimal renderings. -/
def drawDigits (ops : FakerOps) : Nat → Nat → Txt × Nat
  | 0, fs => ([], fs)
  | n + 1, fs =>
    let (d, fs1) := ops.randomDigit fs
    let (rest, fs2) := drawDigits ops n fs1
    (natDigits d ++ rest, fs2)

/-- `_generate_bank_account`: IBAN-shaped when the first two characters are
letters, otherwise a same-length digit string. -/
def genBankAccount (ops : FakerOps) (fs : Nat) (v : Txt) : Txt × Nat :=
  let p := v.take 2
  if p ≠ [] ∧ p.all isLetterCode then ops.ibanDraw fs
  else drawDigits ops v.length fs

/-- Whitespace split discarding empty tokens (Python `str.split()`). -/
def splitWs (v : Txt) : List Txt :=
  (v.splitOnP (fun c => CCls.mem wsC c)).filter (fun t => !t.isEmpty)

/-- `_generate_name`: preserve the token count. -/
def genName (ops : FakerOps) (fs : Nat) (v : Txt) : Txt × Nat :=
  let parts := splitWs v
  if parts.length = 1 then ops.firstNameDraw fs
  else if parts.length = 2 then ops.fullNameDraw fs
  else
    let (f, fs1) := ops.firstNameDraw fs
    let (l, fs2) := ops.lastNameDraw fs1
    (f ++ [32] ++ l, fs2)

/-- `_generate_generic`: an opaque redaction marker. -/
def genGeneric (ops : FakerOps) (fs : Nat) : Txt × Nat :=
  let (a, fs1) := ops.randomInt 1000 9999 fs
  (codes ("[REDACTED-") ++ natDigits a ++ [93], fs1)

/-- `_generate_by_type`: the category-to-rule dispatch table with the generic
fallback for unknown categories. -/
def genByType (ops : FakerOps) (fs : Nat) (t : PIIType) (v : Txt) :
    Except Unit Txt × Nat :=
  match t with
  | .email => let (x, fs1) := ops.emailDraw fs; (.ok x, fs1)
  | .phone => let (x, fs1) := genPhone ops fs v; (.ok x, fs1)
  | .ssn => let (x, fs1) := genSsn ops fs v; (.ok x, fs1)
  | .credit_card => let (x, fs1) := genCreditCard ops fs v; (.ok x, fs1)
  | .ip_address => let (x, fs1) := genIp ops fs v; (.ok x, fs1)
  | .date => let (x, fs1) := genDate ops fs v; (.ok x, fs1)
  | .address => let (x, fs1) := genAddress ops fs v; (.ok x, fs1)
  | .passport => genPassport ops fs v
  | .driver_license => genPassport ops fs v
  | .bank_account => let (x, fs1) := genBankAccount ops fs v; (.ok x, fs1)
  | .person_name => let (x, fs1) := genName ops fs v; (.ok x, fs1)
  | .custom => let (x, fs1) := genGeneric ops fs; (.ok x, fs1)

/-- `FakeDataGenerator.generate`: consistency-cache lookup, per-value
seeding, dispatch, cache write-back. -/
def generate (ops : FakerOps) (g : GenState) (t : PIIType) (v : Txt) :
    Except Unit Txt × GenState :=
  match (if g.consistent then g.cache.lookup v else none) with
  | some r => (.ok r, g)
  | none =>
    let fs0 := if g.consistent then ops.seedState (ops.hashSeed v) else g.fstate
    match genByType ops fs0 t v with
    | (.error e, fs1) => (.error e, { g with fstate := fs1 })
    | (.ok fake, fs1) =>
      (.ok fake,
        { g with fstate := fs1,
                 cache := if g.consistent then (v, fake) :: g.cache else g.cache })

/-- `FakeDataGenerator.clear_cache`. -/
def clearCache (g : GenState) : GenState := { g with cache := [] }

/-- A concrete `FakerOps` instance with fixed draws, for witnesses and
counterexamples. -/
def testOps : FakerOps where
  hashSeed := fun _ => 0
  seedState := fun s => s
  emailDraw := fun s => (codes ("x@y.zz"), s)
  phoneDraw := fun s => (codes ("555-000-1111"), s)
  ssnDraw := fun s => (codes ("900-12-3456"), s)
  ccDraw := fun s => (codes ("4222222222222222"), s)
  ipv4Draw := fun s => (codes ("10.0.0.1"), s)
  ipv6Draw := fun s => (codes ("a:b:c:d:e:f:0:1"), s)
  dateDraw := fun s => ((1987, 5, 14), s)
  addressDraw := fun s => (codes ("1 Elm St"), s)
  randomInt := fun lo _ s => (lo, s)
  randomDigit := fun s => (7, s)
  firstNameDraw := fun s => (codes ("Ann"), s)
  lastNameDraw := fun s => (codes ("Lee"), s)
  fullNameDraw := fun s => (codes ("Ann Lee"), s)
  ibanDraw := fun s => (codes ("DE00123456789012345678"), s)

/-- Replay a list of `generate` calls against the generator state (the
"other calls made in between" of C4; no `clear_cache` among them). -/
def applyCalls (ops : FakerOps) (g : GenState) (calls : List (PIIType × Txt)) : GenState :=
  calls.foldl (fun g c => (generate ops g c.1 c.2).2) g

/-! ## Date layout (C7) -/

/-- Month-first slash layout: the third character is the first slash (the
shape of `%m/%d/%Y` output; `%Y/%m/%d` output has a four-digit year first). -/
def monthFirstShape (r : Txt) : Bool := r.get? 2 == some 47

/-- Value of the leading digit run of a text (the claim's "first numeric
group"), `none` when the text does not start with a digit. -/
def firstNumGroup (v : Txt) : Option Nat :=
  let ds := v.takeWhile isDigitCode
  if ds.isEmpty then none else some (ds.foldl (fun a c => a * 10 + (c - 48)) 0)

/-! ## Anonymization engine (protector.py) -/

/-- `AnonymizationResult` (the report): replacements pair each match with its
generated value, in ascending original-position order. -/
structure AnonymizationResult where
  original_text : Txt
  anonymized_text : Txt
  replacements : List (PIIMatch × Txt)
  pii_found : Nat
deriving DecidableEq, Repr

def descStart (a b : PIIMatch) : Prop := b.start ≤ a.start

instance : DecidableRel descStart := fun a b => Nat.decLe b.start a.start

instance : IsTotal PIIMatch descStart := ⟨fun a b => Nat.le_total b.start a.start⟩

instance : IsTrans PIIMatch descStart := ⟨fun _ _ _ h1 h2 => Nat.le_trans h2 h1⟩

/-- The replacement loop of `anonymize_with_report`: for each match (already
sorted by descending start) generate a fake value, splice it over the span,
and record the replacement; a generation error propagates. -/
def spliceLoop (ops : FakerOps) :
    List PIIMatch → Txt × List (PIIMatch × Txt) × GenState →
      Except Unit (Txt × List (PIIMatch × Txt) × GenState)
  | [], acc => .ok acc
  | m :: rest, (txt, reps, g) =>
    match generate ops g m.pii_type m.value with
    | (.error e, _) => .error e
    | (.ok fake, g1) =>
      spliceLoop ops rest
        (txt.take m.start ++ fake ++ txt.drop m.stop, reps ++ [(m, fake)], g1)

/-- `PrivacyProtector.anonymize_with_report` with the default (regex-only)
configuration: detect, sort by start descending, splice each replacement,
then report the recorded replacements in reverse (ascending) order. -/
def anonymizeWithReport (ops : FakerOps) (g : GenState) (text : Txt) :
    Except Unit AnonymizationResult :=
  let ms := detectDefault text
  let desc := List.insertionSort descStart ms
  (spliceLoop ops desc (text, [], g)).map (fun acc =>
    ⟨text, acc.1, acc.2.1.reverse, ms.length⟩)

/-- The spec-side description of splicing: walk the matches in ascending
order, keeping every non-matched gap of the original text verbatim and
substituting each span's replacement. -/
def spliceSpec (text : Txt) : Nat → List (Nat × Nat × Txt) → Txt
  | off, [] => text.drop off
  | off, (s, e, f) :: rest => (text.drop off).take (s - off) ++ f ++ spliceSpec text e rest

/-! ## Case insensitivity (C9) -/

/-- Swap the case of an ASCII letter code, identity elsewhere. -/
def swapCase (n : Nat) : Nat :=
  if 65 ≤ n ∧ n ≤ 90 then n + 32
  else if 97 ≤ n ∧ n ≤ 122 then n - 32
  else n

/-- Decidable check that a class is closed under case swapping. -/
def CCls.ciB (c : CCls) : Bool :=
  (List.range 128).all (fun n => c.mem (swapCase n) == c.mem n)

/-- All character classes occurring in a pattern. -/
def Regex.clsList : Regex → List CCls
  | .eps => []
  | .wordB => []
  | .cls c => [c]
  | .seq a b => a.clsList ++ b.clsList
  | .alt a b => a.clsList ++ b.clsList
  | .rep r _ _ => r.clsList

def Regex.ciB (r : Regex) : Bool := r.clsList.all CCls.ciB

/-- Swap the case of a match's value, leaving its span and category alone. -/
def valueSwap (m : PIIMatch) : PIIMatch := { m with value := m.value.map swapCase }

/-! ## A bare 16-digit Visa text (C5) -/

/-- Decidable check that a class accepts every decimal digit code. -/
def CCls.allDigitB (c : CCls) : Bool := (List.range 10).all (fun i => c.mem (48 + i))

/-- Decidable check that a class accepts no decimal digit code. -/
def CCls.noDigitB (c : CCls) : Bool := (List.range 10).all (fun i => !(c.mem (48 + i)))

/-- The descending interval `[b + k, b + k - 1, ..., b]` — the greedy
backtracking order of the ends of a digit run. -/
def descList (b : Nat) : Nat → List Nat
  | 0 => [b]
  | k + 1 => (b + k + 1) :: descList b k

/-- A text that is a bare 16-digit Visa-shaped number standing alone:
exactly sixteen decimal digit codes, the first being `4` (code 52). -/
structure Digits16 (text : Txt) : Prop where
  len : text.length = 16
  dig : ∀ c ∈ text, isDigitCode c = true
  first : text.get? 0 = some 52

/-! ## Theorems -/

/-- Every end produced by `repB` lies between `p` (plus the mandatory
consumption) and `len`, provided the body's ends do. -/
theorem repB_bounds (f : Nat → List Nat) (m len : Nat)
    (hf : ∀ p e, e ∈ f p → p ≤ len → p + m ≤ e ∧ e ≤ len) :
    ∀ h lo p e, e ∈ repB f h lo p → p ≤ len → p + lo * m ≤ e ∧ e ≤ len := by
  intro h
  induction h with
  | zero =>
    intro lo p e he hp
    simp only [repB] at he
    split at he
    · rename_i hlo
      simp only [List.mem_singleton] at he
      subst he; subst hlo
      simp [hp]
    · simp at he
  | succ h ih =>
    intro lo p e he hp
    simp only [repB] at he
    split at he
    · rename_i hlo
      subst hlo
      simp only [List.mem_append, List.mem_flatMap, List.mem_singleton] at he
      rcases he with ⟨q, hq, he⟩ | he
      · have h1 := hf p q hq hp
        have h2 := ih 0 q e he h1.2
        refine ⟨?_, h2.2⟩
        have ha := h1.1
        have hb := h2.1
        simp only [Nat.zero_mul, Nat.add_zero] at hb ⊢
        omega
      · subst he; simp [hp]
    · rename_i hlo
      simp only [List.mem_flatMap] at he
      rcases he with ⟨q, hq, he⟩
      have h1 := hf p q hq hp
      have h2 := ih (lo - 1) q e he h1.2
      refine ⟨?_, h2.2⟩
      obtain ⟨n, rfl⟩ : ∃ n, lo = n + 1 :=
        ⟨lo - 1, (Nat.succ_pred_eq_of_pos (Nat.pos_of_ne_zero hlo)).symm⟩
      have ha := h1.1
      have hb := h2.1
      simp only [Nat.add_sub_cancel, Nat.succ_mul] at hb ⊢
      omega

theorem starE_bounds (f : Nat → List Nat) (len : Nat)
    (hf : ∀ p e, e ∈ f p → p ≤ len → e ≤ len) :
    ∀ fuel p e, e ∈ starE f fuel p → p ≤ len → p ≤ e ∧ e ≤ len := by
  intro fuel
  induction fuel with
  | zero =>
    intro p e he hp
    simp only [starE, List.mem_singleton] at he
    subst he; exact ⟨le_refl _, hp⟩
  | succ fuel ih =>
    intro p e he hp
    simp only [starE, List.mem_append, List.mem_flatMap, List.mem_singleton,
      List.mem_filter] at he
    rcases he with ⟨q, ⟨hq, hlt⟩, he⟩ | he
    · have hql : q ≤ len := hf p q hq hp
      have h2 := ih q e he hql
      exact ⟨le_trans (le_of_lt (by simpa using hlt)) h2.1, h2.2⟩
    · subst he; exact ⟨le_refl _, hp⟩

/-- Every end of a match of `r` at `p` consumes at least `r.minLen`
characters and stays inside the text. -/
theorem ends_bounds (text : Txt) :
    ∀ (r : Regex) (p e : Nat), e ∈ ends text r p → p ≤ text.length →
      p + r.minLen ≤ e ∧ e ≤ text.length := by
  intro r
  induction r with
  | eps =>
    intro p e he hp
    simp only [ends, List.mem_singleton] at he
    subst he; simp [Regex.minLen, hp]
  | cls c =>
    intro p e he hp
    simp only [ends] at he
    cases hg : text.get? p with
    | none => rw [hg] at he; simp at he
    | some ch =>
      rw [hg] at he
      dsimp only at he
      by_cases hm : c.mem ch
      · rw [if_pos hm] at he
        simp only [List.mem_singleton] at he
        subst he
        obtain ⟨hlt, -⟩ := List.get?_eq_some.mp hg
        exact ⟨by simp [Regex.minLen], by omega⟩
      · rw [if_neg hm] at he
        simp at he
  | wordB =>
    intro p e he hp
    simp only [ends] at he
    split at he
    · simp only [List.mem_singleton] at he
      subst he; simp [Regex.minLen, hp]
    · simp at he
  | seq a b iha ihb =>
    intro p e he hp
    simp only [ends, List.mem_flatMap] at he
    rcases he with ⟨q, hq, he⟩
    have h1 := iha p q hq hp
    have h2 := ihb q e he h1.2
    exact ⟨by simp only [Regex.minLen]; omega, h2.2⟩
  | alt a b iha ihb =>
    intro p e he hp
    simp only [ends, List.mem_append] at he
    rcases he with he | he
    · have h := iha p e he hp
      exact ⟨by simp only [Regex.minLen]; omega, h.2⟩
    · have h := ihb p e he hp
      exact ⟨by simp only [Regex.minLen]; omega, h.2⟩
  | rep r lo hi ih =>
    intro p e he hp
    simp only [ends] at he
    rcases hi with _ | h
    · simp only [List.mem_flatMap] at he
      rcases he with ⟨q, hq, he⟩
      have hb := repB_bounds (ends text r) r.minLen text.length
        (fun p e hme hple => ih p e hme hple) lo lo p q hq hp
      have hs := starE_bounds (ends text r) text.length
        (fun p e hme hple => (ih p e hme hple).2) (text.length + 1) q e he hb.2
      refine ⟨?_, hs.2⟩
      simp only [Regex.minLen]
      have := hb.1
      have := hs.1
      omega
    · have hb := repB_bounds (ends text r) r.minLen text.length
        (fun p e hme hple => ih p e hme hple) h lo p e he hp
      exact ⟨by simp only [Regex.minLen]; omega, hb.2⟩

/-- Every span found by a scan starting at an in-range position has its start
in range and its end among the pattern's ends at that start. -/
theorem scanPos_spec (f : Nat → List Nat) (len : Nat) :
    ∀ fuel p0 s e, (s, e) ∈ scanPos f len fuel p0 →
      p0 ≤ s ∧ s ≤ len ∧ e ∈ f s := by
  intro fuel
  induction fuel with
  | zero => intro p0 s e h; simp [scanPos] at h
  | succ fuel ih =>
    intro p0 s e h
    simp only [scanPos] at h
    split at h
    · rename_i hle
      rcases hh : (f p0).head? with _ | e0
      · rw [hh] at h
        have := ih (p0 + 1) s e h
        exact ⟨by omega, this.2.1, this.2.2⟩
      · rw [hh] at h
        simp only [List.mem_cons, Prod.mk.injEq] at h
        rcases h with ⟨hs, he⟩ | h
        · subst hs; subst he
          exact ⟨le_refl _, hle, List.mem_of_mem_head? hh⟩
        · have := ih _ s e h
          have hstep : p0 ≤ (if p0 < e0 then e0 else p0 + 1) := by
            split <;> omega
          exact ⟨le_trans hstep this.1, this.2.1, this.2.2⟩
    · simp at h

theorem finditer_spec (text : Txt) (r : Regex) (s e : Nat)
    (h : (s, e) ∈ finditer text r) :
    s + r.minLen ≤ e ∧ e ≤ text.length := by
  have hs := scanPos_spec (ends text r) text.length (text.length + 2) 0 s e h
  exact ends_bounds text r s e hs.2.2 hs.2.1

theorem spansOverlapB_symm (a b : Nat × Nat) : spansOverlapB a b = spansOverlapB b a := by
  simp [spansOverlapB, Bool.or_comm]

/-- The accept loop preserves: recorded spans are exactly the accepted
matches' spans, and they are pairwise non-overlapping. -/
theorem resolve_invariant (cs : List PIIMatch) :
    ∀ st : List PIIMatch × List (Nat × Nat),
      st.2 = st.1.map spanOf →
      st.2.Pairwise (fun a b => spansOverlapB a b = false) →
      (cs.foldl resolveStep st).2 = (cs.foldl resolveStep st).1.map spanOf ∧
        (cs.foldl resolveStep st).2.Pairwise (fun a b => spansOverlapB a b = false) := by
  induction cs with
  | nil => intro st h1 h2; exact ⟨h1, h2⟩
  | cons c cs ih =>
    intro st h1 h2
    simp only [List.foldl_cons]
    by_cases hov : st.2.any (fun sp => spansOverlapB (c.start, c.stop) sp)
    · rw [resolveStep, if_pos hov]
      exact ih st h1 h2
    · rw [resolveStep, if_neg hov]
      apply ih
      · simp [h1, spanOf]
      · rw [List.pairwise_append]
        refine ⟨h2, List.pairwise_singleton _ _, ?_⟩
        intro a ha b hb
        simp only [List.mem_singleton] at hb
        subst hb
        rw [List.any_eq_true] at hov
        push_neg at hov
        have := hov a ha
        rw [spansOverlapB_symm]
        simpa using this

theorem resolve_mem (cs : List PIIMatch) :
    ∀ st m, m ∈ (cs.foldl resolveStep st).1 → m ∈ st.1 ∨ m ∈ cs := by
  induction cs with
  | nil => intro st m h; exact Or.inl h
  | cons c cs ih =>
    intro st m h
    simp only [List.foldl_cons] at h
    rcases ih (resolveStep st c) m h with h1 | h1
    · rw [resolveStep] at h1
      split at h1
      · exact Or.inl h1
      · simp only [List.mem_append, List.mem_singleton] at h1
        rcases h1 with h1 | h1
        · exact Or.inl h1
        · exact Or.inr (by simp [h1])
    · exact Or.inr (List.mem_cons_of_mem _ h1)

theorem detect_mem_candidates (cat : Catalog) (text : Txt) (m : PIIMatch)
    (hm : m ∈ detectWith cat text) : m ∈ candidatesFor text cat := by
  rw [detectWith] at hm
  have hperm := List.perm_insertionSort ascStart ((candidatesFor text cat).foldl resolveStep ([], [])).1
  have := hperm.mem_iff.mp hm
  rcases resolve_mem _ _ _ this with h | h
  · simp at h
  · exact h

theorem candidatesFor_spec (text : Txt) (cat : Catalog) (m : PIIMatch)
    (hm : m ∈ candidatesFor text cat) :
    ∃ t ps r conf, (t, ps) ∈ cat ∧ (r, conf) ∈ ps ∧
      (m.start, m.stop) ∈ finditer text r ∧
      m.value = (text.drop m.start).take (m.stop - m.start) := by
  simp only [candidatesFor, List.mem_flatMap, List.mem_map] at hm
  rcases hm with ⟨⟨t, ps⟩, htp, ⟨r, conf⟩, hrc, ⟨s, e⟩, hse, hm⟩
  subst hm
  exact ⟨t, ps, r, conf, htp, hrc, hse, rfl⟩

/-- Every built-in pattern consumes at least one character. -/
theorem default_minLen_pos :
    (mkDetector none).all (fun tp => tp.2.all (fun rc => decide (1 ≤ rc.1.minLen))) = true := by
  decide

theorem detectWith_pairwise_aux (cat : Catalog) (text : Txt) :
    (detectWith cat text).Pairwise NoOv := by
  have hinv := resolve_invariant (candidatesFor text cat) ([], []) rfl (by simp)
  have hpair : (((candidatesFor text cat).foldl resolveStep ([], [])).1).Pairwise NoOv := by
    have := hinv.2
    rw [hinv.1, List.pairwise_map] at this
    exact this
  have hperm := List.perm_insertionSort ascStart ((candidatesFor text cat).foldl resolveStep ([], [])).1
  have hsymm : Symmetric NoOv := by
    intro a b h
    rw [NoOv, spansOverlapB_symm]
    exact h
  exact (hperm.pairwise_iff (fun {_ _} h => hsymm h)).mpr hpair

/-- Claim C1: for every input text (and any rule catalog, including custom
rules), the match list returned by `RegexDetector.detect` is pairwise
span-disjoint under the half-open overlap test `_spans_overlap`; touching at
a boundary is allowed because the test uses strict interval intersection. -/
theorem detect_pairwise_disjoint (cat : Catalog) (text : Txt) :
    (detectWith cat text).Pairwise NoOv :=
  detectWith_pairwise_aux cat text

theorem detect_bounds_aux (text : Txt) (m : PIIMatch)
    (hm : m ∈ detectDefault text) :
    0 ≤ m.start ∧ m.start < m.stop ∧ m.stop ≤ text.length ∧
      m.value = (text.drop m.start).take (m.stop - m.start) := by
  have hc := detect_mem_candidates _ _ _ hm
  rcases candidatesFor_spec _ _ _ hc with ⟨t, ps, r, conf, htp, hrc, hfind, hval⟩
  have hb := finditer_spec text r m.start m.stop hfind
  have hmin : 1 ≤ r.minLen := by
    have h1 := List.all_eq_true.mp default_minLen_pos _ htp
    have h2 := List.all_eq_true.mp h1 _ hrc
    simpa using h2
  exact ⟨Nat.zero_le _, by omega, hb.2, hval⟩

/-- Claim C2: every match returned by the default detector satisfies
`0 ≤ start < end ≤ len(text)` and its `value` equals the slice
`text[start:end]`. -/
theorem detect_offsets_correct (text : Txt) (m : PIIMatch)
    (hm : m ∈ detectDefault text) :
    0 ≤ m.start ∧ m.start < m.stop ∧ m.stop ≤ text.length ∧
      m.value = (text.drop m.start).take (m.stop - m.start) :=
  detect_bounds_aux text m hm

/-- Witness for C2 at the concrete text `a@b.cc`. -/
theorem detect_offsets_correct_witness :
    (⟨PIIType.email, codes ("a@b.cc"), 0, 6, 99⟩ : PIIMatch) ∈ detectDefault (codes ("a@b.cc")) ∧
      (0 < 6 ∧ 6 ≤ (codes ("a@b.cc")).length ∧
        codes ("a@b.cc") = ((codes ("a@b.cc")).drop 0).take (6 - 0)) := by
  refine ⟨by decide, ?_⟩
  have h := detect_offsets_correct (codes ("a@b.cc"))
    ⟨PIIType.email, codes ("a@b.cc"), 0, 6, 99⟩ (by decide)
  exact ⟨h.2.1, h.2.2.1, h.2.2.2⟩

/-- Claim C10: constructing the detector with an empty enabled-types list
behaves exactly like constructing it with `None`: the Python expression
`enabled_types or list(self.PATTERNS.keys())` treats the empty list as falsy,
so both detectors run all built-in categories and return the same matches on
every text. -/
theorem empty_enabled_equals_none (text : Txt) :
    detectWith (mkDetector (some [])) text = detectWith (mkDetector none) text := rfl

theorem compileRules_error_iff (ps : List (Regex × Nat)) :
    compileRules ps = .error .patternError ↔
      ∃ rc, rc ∈ ps ∧ (rc : Regex × Nat).1.wellFormed = false := by
  induction ps with
  | nil => simp [compileRules]
  | cons rc rest ih =>
    simp only [compileRules]
    by_cases hwf : rc.1.wellFormed
    · rw [compileRe, if_pos hwf]
      dsimp only
      constructor
      · intro h
        rcases hr : compileRules rest with e | rs
        · rcases ih.mp (by cases e; exact hr) with ⟨rc2, hmem, hbad⟩
          exact ⟨rc2, List.mem_cons_of_mem _ hmem, hbad⟩
        · rw [hr] at h; simp [Except.map] at h
      · intro ⟨rc2, hmem, hbad⟩
        rcases List.mem_cons.mp hmem with heq | hmem2
        · subst heq; rw [hwf] at hbad; cases hbad
        · have := ih.mpr ⟨rc2, hmem2, hbad⟩
          rw [this]; rfl
    · rw [compileRe, if_neg hwf]
      dsimp only
      constructor
      · intro _
        exact ⟨rc, List.mem_cons_self _ _, by simpa using hwf⟩
      · intro _
        rfl

theorem buildCatalog_error_iff (raw : Catalog) :
    buildCatalog raw = .error .patternError ↔
      ∃ tp rc, tp ∈ raw ∧ rc ∈ (tp : PIIType × List (Regex × Nat)).2 ∧
        (rc : Regex × Nat).1.wellFormed = false := by
  induction raw with
  | nil => simp [buildCatalog]
  | cons tp rest ih =>
    simp only [buildCatalog]
    rcases hr : compileRules tp.2 with e | ps
    · cases e
      constructor
      · intro _
        rcases (compileRules_error_iff tp.2).mp hr with ⟨rc, hmem, hbad⟩
        exact ⟨tp, rc, List.mem_cons_self _ _, hmem, hbad⟩
      · intro _; rfl
    · dsimp only
      constructor
      · intro h
        rcases hb : buildCatalog rest with e | cs
        · rcases ih.mp (by cases e; exact hb) with ⟨tp2, rc, hmem, hmem2, hbad⟩
          exact ⟨tp2, rc, List.mem_cons_of_mem _ hmem, hmem2, hbad⟩
        · rw [hb] at h; simp [Except.map] at h
      · intro ⟨tp2, rc, hmem, hmem2, hbad⟩
        rcases List.mem_cons.mp hmem with heq | hmem3
        · rw [heq] at hmem2
          exfalso
          have hce : compileRules tp.2 = .error .patternError :=
            (compileRules_error_iff tp.2).mpr ⟨rc, hmem2, hbad⟩
          rw [hce] at hr; cases hr
        · have := ih.mpr ⟨tp2, rc, hmem3, hmem2, hbad⟩
          rw [this]; rfl

/-- Claim C8: a pattern that fails to compile raises `PatternError` at
catalog-construction time (first conjunct) or at `add_custom_pattern` time
(third conjunct); and once construction succeeded, detection is the total
function `detectWith` — deferring compilation to detect time could not fail
either (second conjunct). -/
theorem pattern_errors_surface_at_registration (raw cat : Catalog) (text : Txt)
    (r : Regex) (conf : Nat) :
    (buildCatalog raw = .error .patternError ↔
      ∃ tp rc, tp ∈ raw ∧ rc ∈ (tp : PIIType × List (Regex × Nat)).2 ∧
        (rc : Regex × Nat).1.wellFormed = false)
    ∧ (∀ d, buildCatalog raw = .ok d → rawDetect raw text = .ok (detectWith d text))
    ∧ (addCustomPattern cat r conf = .error .patternError ↔ r.wellFormed = false) := by
  refine ⟨buildCatalog_error_iff raw, ?_, ?_⟩
  · intro d hd
    rw [rawDetect, hd]
    rfl
  · rw [addCustomPattern, compileRe]
    by_cases hwf : r.wellFormed
    · rw [if_pos hwf]
      simp [Except.map, hwf]
    · rw [if_neg hwf]
      simp [Except.map]
      simpa using hwf

/-- Witness for C8: an ill-formed repetition (`{3,1}`) is rejected at
registration, and building the default catalog succeeds, after which
detection on a sample text is a total value. -/
theorem pattern_errors_surface_at_registration_witness :
    addCustomPattern PATTERNS (.rep .eps 3 (some 1)) 80 = .error .patternError ∧
      rawDetect PATTERNS (codes ("z")) = .ok (detectWith PATTERNS (codes ("z"))) := by
  constructor
  · exact (pattern_errors_surface_at_registration [] PATTERNS (codes ("z"))
      (.rep .eps 3 (some 1)) 80).2.2.mpr (by decide)
  · exact (pattern_errors_surface_at_registration PATTERNS [] (codes ("z"))
      .eps 80).2.1 PATTERNS (by rfl)

/-- Counterexample to C5 as stated: the text `a@4111111111111111.aa` contains
a boundary-delimited 16-digit Visa-shaped run at offset 2, yet `detect`
returns only an email match covering the whole text — the earlier-registered
email category shadows the payment-card candidate, so no payment-card match
covering the run is returned. -/
theorem visa_priority_counterexample :
    visaRunAt (codes ("a@4111111111111111.aa")) 2 = true ∧
      detectDefault (codes ("a@4111111111111111.aa")) =
        [⟨PIIType.email, codes ("a@4111111111111111.aa"), 0, 21, 99⟩] ∧
      (detectDefault (codes ("a@4111111111111111.aa"))).filter
        (fun m => m.pii_type == PIIType.credit_card) = [] := by
  exact ⟨by decide, by decide, by decide⟩

theorem generate_consistent_eq (ops : FakerOps) (g : GenState) (t : PIIType) (v : Txt) :
    (generate ops g t v).2.consistent = g.consistent := by
  unfold generate
  split
  · rfl
  · dsimp only
    split <;> rfl

theorem generate_preserves_hit (ops : FakerOps) (g : GenState) (t : PIIType)
    (v w : Txt) (r : Txt) (h : g.cache.lookup w = some r) :
    (generate ops g t v).2.cache.lookup w = some r := by
  unfold generate
  split
  · exact h
  · rename_i hnone
    dsimp only
    split
    · exact h
    · rename_i fake fs1 hgen
      dsimp only
      by_cases hc : g.consistent = true
      · rw [if_pos hc]
        rw [if_pos hc] at hnone
        simp only [List.lookup]
        cases hb : w == v with
        | true =>
          have hwv2 : w = v := by simpa using hb
          subst hwv2
          rw [h] at hnone
          cases hnone
        | false =>
          exact h
      · rw [if_neg hc]
        exact h

theorem generate_ok_cached (ops : FakerOps) (g g1 : GenState) (t : PIIType)
    (v r : Txt) (hc : g.consistent = true)
    (h : generate ops g t v = (.ok r, g1)) :
    g1.cache.lookup v = some r := by
  unfold generate at h
  rw [hc] at h
  simp only [eq_self_iff_true, if_true] at h
  rcases hl : g.cache.lookup v with _ | r0
  · rw [hl] at h
    dsimp only at h
    rcases hgen : genByType ops (ops.seedState (ops.hashSeed v)) t v with ⟨res, fs1⟩
    rw [hgen] at h
    rcases res with e | fake
    · simp at h
    · cases h
      simp [List.lookup]
  · rw [hl] at h
    cases h
    exact hl

theorem generate_cache_hit (ops : FakerOps) (g : GenState) (t : PIIType)
    (v r : Txt) (hc : g.consistent = true) (hl : g.cache.lookup v = some r) :
    generate ops g t v = (.ok r, g) := by
  unfold generate
  rw [hc]
  simp only [eq_self_iff_true, if_true]
  rw [hl]

theorem applyCalls_preserves (ops : FakerOps) (calls : List (PIIType × Txt)) :
    ∀ (g : GenState) (v r : Txt), g.cache.lookup v = some r →
      (applyCalls ops g calls).cache.lookup v = some r ∧
        (applyCalls ops g calls).consistent = g.consistent := by
  induction calls with
  | nil => intro g v r h; exact ⟨h, rfl⟩
  | cons c rest ih =>
    intro g v r h
    rw [applyCalls, List.foldl_cons]
    have h1 := generate_preserves_hit ops g c.1 c.2 v r h
    have h2 := generate_consistent_eq ops g c.1 c.2
    have := ih (generate ops g c.1 c.2).2 v r h1
    rw [applyCalls] at this
    exact ⟨this.1, this.2.trans h2⟩

/-- Claim C4: with consistency on and no intervening `clear_cache`, any two
successful `generate` calls on the same original value return the identical
replacement, regardless of the categories used and of any other `generate`
calls made in between: the first successful call installs a cache entry
keyed by the original alone, later calls can only add other keys, and the
second call is served from the cache. -/
theorem consistent_generate_deterministic (ops : FakerOps) (g g1 g3 : GenState)
    (c1 c2 : PIIType) (v : Txt) (calls : List (PIIType × Txt)) (r1 r2 : Txt)
    (hcons : g.consistent = true)
    (h1 : generate ops g c1 v = (.ok r1, g1))
    (h2 : generate ops (applyCalls ops g1 calls) c2 v = (.ok r2, g3)) :
    r1 = r2 := by
  have hcached : g1.cache.lookup v = some r1 := generate_ok_cached ops g g1 c1 v r1 hcons h1
  have hc1 : g1.consistent = true := by
    have := generate_consistent_eq ops g c1 v
    rw [h1] at this
    rw [this, hcons]
  have hpres := applyCalls_preserves ops calls g1 v r1 hcached
  have hhit := generate_cache_hit ops (applyCalls ops g1 calls) c2 v r1
    (hpres.2.trans hc1) hpres.1
  rw [hhit] at h2
  cases h2
  rfl

/-- Witness for C4: a concrete run — email then an unrelated phone call then
an ssn call on the same original — returns the same replacement both times. -/
theorem consistent_generate_deterministic_witness : codes ("x@y.zz") = codes ("x@y.zz") :=
  consistent_generate_deterministic testOps ⟨true, [], 0⟩
    ⟨true, [(codes ("v"), codes ("x@y.zz"))], 0⟩
    ((applyCalls testOps ⟨true, [(codes ("v"), codes ("x@y.zz"))], 0⟩
        [(PIIType.phone, codes ("w"))]))
    PIIType.email PIIType.ssn (codes ("v")) [(PIIType.phone, codes ("w"))]
    (codes ("x@y.zz")) (codes ("x@y.zz")) rfl rfl rfl

/-- Claim C6 (code bug): `_generate_passport` (and `_generate_driver_license`,
which delegates to it) computes `10 ** (num_digits - 1)`; for a digit-free
original `num_digits` is `0`, the exponent is `-1`, the result is the float
`0.1`, and `faker.random_int` raises `ValueError` — substitution is not
total. -/
theorem passport_generation_raises :
    (generate testOps ⟨true, [], 0⟩ PIIType.passport (codes ("abc"))).1 = .error () ∧
      (generate testOps ⟨true, [], 0⟩ PIIType.driver_license (codes (""))).1 = .error () :=
  ⟨rfl, rfl⟩

theorem natDigitsAux_digits :
    ∀ fuel n c, c ∈ natDigitsAux fuel n → 48 ≤ c ∧ c ≤ 57 := by
  intro fuel
  induction fuel with
  | zero => intro n c h; simp [natDigitsAux] at h
  | succ fuel ih =>
    intro n c h
    simp only [natDigitsAux] at h
    split at h
    · rename_i h10
      simp only [List.mem_singleton] at h
      omega
    · rename_i h10
      simp only [List.mem_append, List.mem_singleton] at h
      rcases h with h | h
      · exact ih _ _ h
      · have hm := Nat.mod_lt n (show 0 < 10 by norm_num)
        omega

theorem natDigits_length_le_two (n : Nat) (h : n < 100) : (natDigits n).length ≤ 2 := by
  rw [natDigits]
  by_cases h10 : n < 10
  · simp [natDigitsAux, h10]
  · simp only [natDigitsAux, if_neg h10]
    have hq : n / 10 < 10 := by omega
    have hpos : 0 < n := by omega
    obtain ⟨m, rfl⟩ : ∃ m, n = m + 1 := ⟨n - 1, by omega⟩
    rw [natDigitsAux, if_pos hq]
    simp

theorem zpad_mem (k : Nat) (l : Txt) (c : Nat) (h : c ∈ zpad k l) : c = 48 ∨ c ∈ l := by
  rw [zpad] at h
  rcases List.mem_append.mp h with h | h
  · exact Or.inl (List.eq_of_mem_replicate h)
  · exact Or.inr h

theorem zpad_length (k : Nat) (l : Txt) : (zpad k l).length = max k l.length := by
  simp [zpad]
  omega

theorem fmtMDY_shape (y m d : Nat) (hm : m < 100) :
    monthFirstShape (fmtMDY y m d) = true := by
  rw [monthFirstShape, fmtMDY]
  have hl : (zpad 2 (natDigits m)).length = 2 := by
    rw [zpad_length]
    have := natDigits_length_le_two m hm
    omega
  simp only [List.append_assoc]
  rw [List.get?_append_right (by omega)]
  rw [hl]
  rfl

theorem fmtYMD_shape (y m d : Nat) : monthFirstShape (fmtYMD y m d) = false := by
  rw [monthFirstShape, fmtYMD]
  have hl : 2 < (zpad 4 (natDigits y)).length := by
    rw [zpad_length]
    omega
  simp only [List.append_assoc]
  rw [List.get?_append hl]
  rcases hg : (zpad 4 (natDigits y)).get? 2 with _ | c
  · rfl
  · have hc := zpad_mem 4 (natDigits y) c (List.get?_mem hg)
    have : c ≠ 47 := by
      rcases hc with h | h
      · omega
      · have := natDigitsAux_digits (y + 1) y c (by rw [natDigits] at h; exact h)
        omega
    simpa using this

/-- Amended C7: for a slash-containing date original generated on the
cache-miss path, the replacement is laid out month-first (`%m/%d/%Y`) exactly
when the original's first slash occurs before index 3, i.e. when its first
numeric group is at most two characters wide — not when that group's value
is at most 12 (the code tests `original.index('/') < 3`). -/
theorem date_layout_amended (ops : FakerOps) (g : GenState) (v : Txt)
    (hm2 : ∀ s, ((ops.dateDraw s).1).2.1 ≤ 12)
    (hmiss : (if g.consistent then g.cache.lookup v else none) = none)
    (hslash : 47 ∈ v) :
    ∃ r g1, generate ops g PIIType.date v = (.ok r, g1) ∧
      (monthFirstShape r = true ↔ firstIdx v 47 < 3) := by
  unfold generate
  rw [hmiss]
  dsimp only
  rw [genByType]
  rw [genDate]
  rcases hdd : ops.dateDraw (if g.consistent = true then ops.seedState (ops.hashSeed v)
      else g.fstate) with ⟨⟨y, md⟩, fs1⟩
  rcases md with ⟨m, d⟩
  have hmle : m ≤ 12 := by
    have := hm2 (if g.consistent = true then ops.seedState (ops.hashSeed v) else g.fstate)
    rw [hdd] at this
    exact this
  dsimp only
  rw [if_pos hslash]
  by_cases hidx : firstIdx v 47 < 3
  · rw [if_pos hidx]
    refine ⟨fmtMDY y m d, _, rfl, ?_⟩
    simp [fmtMDY_shape y m d (by omega), hidx]
  · rw [if_neg hidx]
    refine ⟨fmtYMD y m d, _, rfl, ?_⟩
    simp [fmtYMD_shape y m d, hidx]

/-- Witness for C7 (amended) at the original `9/9/99`. -/
theorem date_layout_amended_witness :
    ∃ r g1, generate testOps ⟨true, [], 0⟩ PIIType.date (codes ("9/9/99")) = (.ok r, g1) ∧
      (monthFirstShape r = true ↔ firstIdx (codes ("9/9/99")) 47 < 3) :=
  date_layout_amended testOps ⟨true, [], 0⟩ (codes ("9/9/99"))
    (fun s => by show (5 : Nat) ≤ 12; norm_num) (by decide) (by decide)

/-- Counterexample to C7 as stated: the original `20/05/2001` has first
numeric group `20 > 12`, so the claim predicts a year-first replacement; the
code tests only `index('/') < 3` and produces the month-first replacement
`05/14/1987`. -/
theorem date_layout_counterexample :
    (generate testOps ⟨true, [], 0⟩ PIIType.date (codes ("20/05/2001"))).1 =
      .ok (codes ("05/14/1987")) ∧
      monthFirstShape (codes ("05/14/1987")) = true ∧
      firstNumGroup (codes ("20/05/2001")) = some 20 ∧ ¬(20 ≤ 12) :=
  ⟨rfl, by decide, by decide, by decide⟩

/-- Splicing a replacement over `[s, e)` commutes with the spec-side walk, as
long as every span in `L` lies entirely to the left of `s`. -/
theorem spliceSpec_shift (txt f : Txt) (s e : Nat) (hs : s ≤ txt.length) :
    ∀ (L : List (Nat × Nat × Txt)) (off : Nat), off ≤ s →
      (∀ x ∈ L, (x : Nat × Nat × Txt).1 ≤ s ∧ (x : Nat × Nat × Txt).2.1 ≤ s) →
      spliceSpec (txt.take s ++ f ++ txt.drop e) off L =
        spliceSpec txt off (L ++ [(s, e, f)]) := by
  intro L
  induction L with
  | nil =>
    intro off hoff _
    simp only [spliceSpec, List.nil_append]
    have hlen : (txt.take s).length = s := by
      rw [List.length_take]
      omega
    rw [List.append_assoc, List.drop_append_eq_append_drop]
    rw [hlen]
    have hz : off - s = 0 := by omega
    rw [hz, List.drop_zero, List.drop_take]
    simp [List.append_assoc]
  | cons x L ih =>
    rcases x with ⟨s1, e1, f1⟩
    intro off hoff hL
    have hx := hL _ (List.mem_cons_self _ _)
    have hs1 : s1 ≤ s := hx.1
    have he1 : e1 ≤ s := hx.2
    simp only [spliceSpec, List.cons_append]
    have hhead : ((txt.take s ++ f ++ txt.drop e).drop off).take (s1 - off) =
        (txt.drop off).take (s1 - off) := by
      rcases Nat.le_total s1 off with hc | hc
      · have : s1 - off = 0 := by omega
        rw [this]
        simp
      · rw [List.append_assoc, List.drop_append_eq_append_drop]
        have hlen : (txt.take s).length = s := by
          rw [List.length_take]; omega
        rw [hlen, List.drop_take]
        rw [List.take_append_eq_append_take]
        have hlen2 : ((txt.drop off).take (s - off)).length = s - off := by
          rw [List.length_take, List.length_drop]
          omega
        rw [hlen2]
        have hz : s1 - off - (s - off) = 0 := by omega
        rw [hz, List.take_zero, List.append_nil, List.take_take]
        congr 1
        omega
    rw [hhead, ih e1 he1 (fun x hx2 => hL x (List.mem_cons_of_mem _ hx2))]
    rfl

/-- Running the replacement loop over a descending, pairwise-separated,
in-bounds match list produces exactly the spec-side ascending splice of the
original text. -/
theorem spliceLoop_spec (ops : FakerOps) :
    ∀ (ds : List PIIMatch) (txt : Txt) (reps : List (PIIMatch × Txt)) (g : GenState)
      (acc : Txt × List (PIIMatch × Txt) × GenState),
      ds.Pairwise (fun a b => b.stop ≤ a.start) →
      (∀ m ∈ ds, m.start ≤ m.stop ∧ m.stop ≤ txt.length) →
      spliceLoop ops ds (txt, reps, g) = .ok acc →
      ∃ nw, acc.2.1 = reps ++ nw ∧ nw.map Prod.fst = ds ∧
        acc.1 = spliceSpec txt 0
          (nw.reverse.map (fun mf => ((mf : PIIMatch × Txt).1.start, mf.1.stop, mf.2))) := by
  intro ds
  induction ds with
  | nil =>
    intro txt reps g acc _ _ h
    cases h
    exact ⟨[], by simp, rfl, by simp [spliceSpec]⟩
  | cons m rest ih =>
    intro txt reps g acc hpair hbnd h
    rw [spliceLoop] at h
    rcases hgen : generate ops g m.pii_type m.value with ⟨res, g1⟩
    rw [hgen] at h
    rcases res with e | fake
    · cases h
    · have hbm := hbnd m (List.mem_cons_self _ _)
      have hlen1 : (txt.take m.start).length = m.start := by
        rw [List.length_take]; omega
      have hrest : ∀ m2 ∈ rest, m2.start ≤ m2.stop ∧
          m2.stop ≤ (txt.take m.start ++ fake ++ txt.drop m.stop).length := by
        intro m2 hm2
        have hb2 := hbnd m2 (List.mem_cons_of_mem _ hm2)
        have hsep := (List.pairwise_cons.mp hpair).1 m2 hm2
        constructor
        · exact hb2.1
        · simp only [List.length_append, hlen1]
          omega
      rcases ih _ _ _ _ (List.pairwise_cons.mp hpair).2 hrest h with ⟨nw, ha, hb, hc⟩
      refine ⟨(m, fake) :: nw, by simpa using ha, by simpa using hb, ?_⟩
      rw [hc]
      have hLspans : ∀ x ∈ nw.reverse.map
          (fun mf => ((mf : PIIMatch × Txt).1.start, mf.1.stop, mf.2)),
          (x : Nat × Nat × Txt).1 ≤ m.start ∧ (x : Nat × Nat × Txt).2.1 ≤ m.start := by
        intro x hx
        rcases List.mem_map.mp hx with ⟨mf, hmf, hxe⟩
        subst hxe
        have hmem : mf.1 ∈ rest := by
          rw [← hb]
          exact List.mem_map_of_mem _ (List.mem_reverse.mp hmf)
        have hsep := (List.pairwise_cons.mp hpair).1 mf.1 hmem
        have hb2 := hbnd mf.1 (List.mem_cons_of_mem _ hmem)
        exact ⟨by dsimp only; omega, by dsimp only; omega⟩
      rw [spliceSpec_shift txt fake m.start m.stop (by omega) _ 0 (Nat.zero_le _) hLspans]
      congr 1
      simp

theorem noOv_iff (a b : PIIMatch) :
    NoOv a b ↔ (a.stop ≤ b.start ∨ b.stop ≤ a.start) := by
  rw [NoOv, spansOverlapB]
  simp
  omega

/-- Claim C3: with no external backend configured, the anonymized text equals
the original with each detected span replaced by its generated value: the
descending-start processing order makes the final text identical to the
spec-side ascending walk that keeps every non-matched gap of the original
byte-identical and in order. -/
theorem anonymize_splices_correctly (ops : FakerOps) (g : GenState) (text : Txt)
    (res : AnonymizationResult)
    (h : anonymizeWithReport ops g text = .ok res) :
    res.anonymized_text = spliceSpec text 0
      (res.replacements.map
        (fun mf => ((mf : PIIMatch × Txt).1.start, mf.1.stop, mf.2))) := by
  rw [anonymizeWithReport] at h
  rcases hloop : spliceLoop ops (List.insertionSort descStart (detectDefault text))
      (text, [], g) with e | acc
  · rw [hloop] at h
    simp [Except.map] at h
  · rw [hloop] at h
    simp only [Except.map] at h
    cases h
    have hperm := List.perm_insertionSort descStart (detectDefault text)
    have hsorted : (List.insertionSort descStart (detectDefault text)).Pairwise descStart :=
      List.sorted_insertionSort descStart (detectDefault text)
    have hpairMs : (detectDefault text).Pairwise NoOv := detectWith_pairwise_aux _ _
    have hsymm : Symmetric NoOv := by
      intro a b hab
      rw [NoOv, spansOverlapB_symm]
      exact hab
    have hpairDesc : (List.insertionSort descStart (detectDefault text)).Pairwise NoOv :=
      (hperm.pairwise_iff (fun {_ _} hab => hsymm hab)).mpr hpairMs
    have hbound : ∀ m ∈ List.insertionSort descStart (detectDefault text),
        m.start < m.stop ∧ m.stop ≤ text.length := by
      intro m hm
      have hmm : m ∈ detectDefault text := hperm.mem_iff.mp hm
      have := detect_bounds_aux text m hmm
      exact ⟨this.2.1, this.2.2.1⟩
    have hsep : (List.insertionSort descStart (detectDefault text)).Pairwise
        (fun a b => b.stop ≤ a.start) := by
      refine (hsorted.and hpairDesc).imp_of_mem ?_
      intro a b ha hb hab
      rcases hab with ⟨hle, hno⟩
      rcases (noOv_iff a b).mp hno with hc | hc
      · have hba := hbound a ha
        rw [descStart] at hle
        omega
      · exact hc
    rcases spliceLoop_spec ops _ text [] g acc hsep
        (fun m hm => ⟨Nat.le_of_lt (hbound m hm).1, (hbound m hm).2⟩) hloop with
      ⟨nw, ha, hb, hc⟩
    dsimp only
    rw [hc]
    rw [List.nil_append] at ha
    rw [ha]

/-- Witness for C3 at the concrete text `a@b.cc`: the email is replaced and
the spec-side splice reproduces the anonymized text. -/
theorem anonymize_splices_correctly_witness :
    (⟨codes ("a@b.cc"), codes ("x@y.zz"),
        [(⟨PIIType.email, codes ("a@b.cc"), 0, 6, 99⟩, codes ("x@y.zz"))], 1⟩ :
      AnonymizationResult).anonymized_text =
      spliceSpec (codes ("a@b.cc")) 0
        ((⟨codes ("a@b.cc"), codes ("x@y.zz"),
            [(⟨PIIType.email, codes ("a@b.cc"), 0, 6, 99⟩, codes ("x@y.zz"))], 1⟩ :
          AnonymizationResult).replacements.map
          (fun mf => ((mf : PIIMatch × Txt).1.start, mf.1.stop, mf.2))) :=
  anonymize_splices_correctly testOps ⟨true, [], 0⟩ (codes ("a@b.cc")) _ rfl

theorem swapCase_eq_of_ge (n : Nat) (h : 128 ≤ n) : swapCase n = n := by
  rw [swapCase, if_neg (by omega), if_neg (by omega)]

theorem swap_invariant_of_all (f : Nat → Bool)
    (h : (List.range 128).all (fun n => f (swapCase n) == f n) = true) (n : Nat) :
    f (swapCase n) = f n := by
  by_cases hn : n < 128
  · have := List.all_eq_true.mp h n (List.mem_range.mpr hn)
    simpa using this
  · rw [swapCase_eq_of_ge n (by omega)]

theorem ciB_mem (c : CCls) (h : c.ciB = true) (n : Nat) :
    c.mem (swapCase n) = c.mem n :=
  swap_invariant_of_all c.mem h n

theorem wordCharB_swap (n : Nat) : wordCharB (swapCase n) = wordCharB n :=
  swap_invariant_of_all wordCharB (by decide) n

theorem wordAt_swap (text : Txt) (i : Nat) :
    wordAt (text.map swapCase) i = wordAt text i := by
  rw [wordAt, wordAt, List.get?_map]
  cases text.get? i
  · rfl
  · exact wordCharB_swap _

theorem isWordBoundary_swap (text : Txt) (p : Nat) :
    isWordBoundary (text.map swapCase) p = isWordBoundary text p := by
  rw [isWordBoundary, isWordBoundary, wordAt_swap, wordAt_swap]

theorem ends_swap (text : Txt) :
    ∀ (r : Regex), (∀ c ∈ r.clsList, c.ciB = true) →
      ∀ p, ends (text.map swapCase) r p = ends text r p := by
  intro r
  induction r with
  | eps => intro _ p; rfl
  | cls c =>
    intro hci p
    simp only [ends, List.get?_map]
    cases hg : text.get? p with
    | none => rfl
    | some ch =>
      dsimp only [Option.map]
      rw [ciB_mem c (hci c (by simp [Regex.clsList]))]
  | wordB =>
    intro _ p
    simp only [ends, isWordBoundary_swap]
  | seq a b iha ihb =>
    intro hci p
    have hfa := iha (fun c hc => hci c (by simp [Regex.clsList, hc]))
    have hfb := ihb (fun c hc => hci c (by simp [Regex.clsList, hc]))
    simp only [ends, hfa]
    congr 1
    exact funext hfb
  | alt a b iha ihb =>
    intro hci p
    simp only [ends]
    rw [iha (fun c hc => hci c (by simp [Regex.clsList, hc])) p,
      ihb (fun c hc => hci c (by simp [Regex.clsList, hc])) p]
  | rep r lo hi ih =>
    intro hci p
    have hf : ends (text.map swapCase) r = ends text r :=
      funext (ih (fun c hc => hci c (by simpa [Regex.clsList] using hc)))
    simp only [ends, hf, List.length_map]

theorem finditer_swap (text : Txt) (r : Regex)
    (h : ∀ c ∈ r.clsList, c.ciB = true) :
    finditer (text.map swapCase) r = finditer text r := by
  rw [finditer, finditer, List.length_map, funext (ends_swap text r h)]

theorem candidatesFor_swap (text : Txt) :
    ∀ (cat : Catalog),
      (∀ tp ∈ cat, ∀ rc ∈ (tp : PIIType × List (Regex × Nat)).2,
        ∀ c ∈ (rc : Regex × Nat).1.clsList, c.ciB = true) →
      candidatesFor (text.map swapCase) cat = (candidatesFor text cat).map valueSwap := by
  intro cat
  induction cat with
  | nil => intro _; rfl
  | cons tp rest ih =>
    intro h
    simp only [candidatesFor, List.flatMap_cons, List.map_append] at *
    rw [ih (fun tp2 h2 rc hrc c hc => h tp2 (List.mem_cons_of_mem _ h2) rc hrc c hc)]
    congr 1
    have hinner : ∀ ps : List (Regex × Nat),
        (∀ rc ∈ ps, ∀ c ∈ (rc : Regex × Nat).1.clsList, c.ciB = true) →
        ps.flatMap (fun rc => (finditer (text.map swapCase) rc.1).map (fun se =>
          (⟨tp.1, ((text.map swapCase).drop se.1).take (se.2 - se.1), se.1, se.2, rc.2⟩ :
            PIIMatch))) =
        (ps.flatMap (fun rc => (finditer text rc.1).map (fun se =>
          (⟨tp.1, (text.drop se.1).take (se.2 - se.1), se.1, se.2, rc.2⟩ :
            PIIMatch)))).map valueSwap := by
      intro ps
      induction ps with
      | nil => intro _; rfl
      | cons rc rest2 ih2 =>
        intro h2
        simp only [List.flatMap_cons, List.map_append]
        rw [ih2 (fun rc2 hrc c hc => h2 rc2 (List.mem_cons_of_mem _ hrc) c hc)]
        congr 1
        rw [finditer_swap text rc.1 (h2 rc (List.mem_cons_self _ _)), List.map_map]
        apply List.map_congr_left
        intro se _
        simp only [Function.comp, valueSwap]
        congr 1
        rw [List.map_take, List.map_drop]
    exact hinner tp.2 (fun rc hrc => h tp (List.mem_cons_self _ _) rc hrc)

theorem resolve_map_value :
    ∀ (cs ms : List PIIMatch) (seen : List (Nat × Nat)),
      ((cs.map valueSwap).foldl resolveStep (ms.map valueSwap, seen)).1 =
        ((cs.foldl resolveStep (ms, seen)).1).map valueSwap ∧
      ((cs.map valueSwap).foldl resolveStep (ms.map valueSwap, seen)).2 =
        (cs.foldl resolveStep (ms, seen)).2 := by
  intro cs
  induction cs with
  | nil => intro ms seen; exact ⟨rfl, rfl⟩
  | cons c rest ih =>
    intro ms seen
    simp only [List.map_cons, List.foldl_cons]
    rw [resolveStep, resolveStep]
    dsimp only [valueSwap]
    by_cases hov : seen.any (fun sp => spansOverlapB (c.start, c.stop) sp)
    · rw [if_pos hov, if_pos hov]
      exact ih ms seen
    · rw [if_neg hov, if_neg hov]
      have := ih (ms ++ [c]) (seen ++ [(c.start, c.stop)])
      simpa using this

theorem orderedInsert_map_valueSwap (a : PIIMatch) :
    ∀ l, List.orderedInsert ascStart (valueSwap a) (l.map valueSwap) =
      (List.orderedInsert ascStart a l).map valueSwap := by
  intro l
  induction l with
  | nil => rfl
  | cons b rest ih =>
    simp only [List.map_cons, List.orderedInsert]
    by_cases hab : ascStart a b
    · rw [if_pos (show ascStart (valueSwap a) (valueSwap b) from hab), if_pos hab]
      simp
    · rw [if_neg (show ¬ascStart (valueSwap a) (valueSwap b) from hab), if_neg hab]
      rw [ih]
      simp

theorem insertionSort_map_valueSwap :
    ∀ l, List.insertionSort ascStart (l.map valueSwap) =
      (List.insertionSort ascStart l).map valueSwap := by
  intro l
  induction l with
  | nil => rfl
  | cons a rest ih =>
    simp only [List.map_cons, List.insertionSort]
    rw [ih, orderedInsert_map_valueSwap]

theorem detectWith_swap (text : Txt) (cat : Catalog)
    (h : ∀ tp ∈ cat, ∀ rc ∈ (tp : PIIType × List (Regex × Nat)).2,
        ∀ c ∈ (rc : Regex × Nat).1.clsList, c.ciB = true) :
    detectWith cat (text.map swapCase) = (detectWith cat text).map valueSwap := by
  rw [detectWith, detectWith, candidatesFor_swap text cat h]
  have hres := resolve_map_value (candidatesFor text cat) [] []
  simp only [List.map_nil] at hres
  rw [hres.1, insertionSort_map_valueSwap]

/-- Every class of every built-in pattern is closed under case swapping. -/
theorem builtin_ci :
    (mkDetector none).all (fun tp => tp.2.all (fun rc => rc.1.ciB)) = true := by
  decide

/-- Counterexample to C9 as stated: the custom literal rule `QZX` (compiled
without `IGNORECASE`) matches `QZX` but not `qzx`, although the latter
differs from the pattern's letter literals only in case — custom rules are
case-sensitive. -/
theorem custom_case_sensitivity_counterexample :
    codes ("qzx") = (codes ("QZX")).map swapCase ∧
      detectWith (addCustomRegex (mkDetector none) qzxRe 80) (codes ("QZX")) ≠ [] ∧
      detectWith (addCustomRegex (mkDetector none) qzxRe 80) (codes ("qzx")) = [] := by
  exact ⟨by decide, by decide, by decide⟩

/-- Amended C9: built-in rules are compiled with `IGNORECASE` and match
case-insensitively — swapping the case of the text yields exactly the same
matches with case-swapped values (first conjunct) — but a custom rule added
through `add_custom_pattern` is compiled without flags and is
case-sensitive: it matches its own literals (third conjunct) and misses the
case-swapped text (second conjunct). -/
theorem case_insensitivity_amended :
    (∀ text : Txt, detectDefault (text.map swapCase) =
        (detectDefault text).map valueSwap) ∧
      detectWith (addCustomRegex (mkDetector none) qzxRe 80) (codes ("qzx")) = [] ∧
      detectWith (addCustomRegex (mkDetector none) qzxRe 80) (codes ("QZX")) =
        [⟨PIIType.custom, codes ("QZX"), 0, 3, 80⟩] := by
  refine ⟨?_, by decide, by decide⟩
  intro text
  apply detectWith_swap
  intro tp htp rc hrc c hc
  have h1 := List.all_eq_true.mp builtin_ci tp htp
  have h2 := List.all_eq_true.mp h1 rc hrc
  have h3 : rc.1.ciB = true := by simpa using h2
  rw [Regex.ciB] at h3
  have h4 := List.all_eq_true.mp h3 c hc
  simpa using h4

theorem mem_of_allDigitB (c : CCls) (hc : c.allDigitB = true) (d : Nat)
    (h1 : 48 ≤ d) (h2 : d ≤ 57) : c.mem d = true := by
  have := List.all_eq_true.mp hc (d - 48) (List.mem_range.mpr (by omega))
  have he : 48 + (d - 48) = d := by omega
  rw [he] at this
  exact this

theorem not_mem_of_noDigitB (c : CCls) (hc : c.noDigitB = true) (d : Nat)
    (h1 : 48 ≤ d) (h2 : d ≤ 57) : c.mem d = false := by
  have := List.all_eq_true.mp hc (d - 48) (List.mem_range.mpr (by omega))
  have he : 48 + (d - 48) = d := by omega
  rw [he] at this
  simpa using this

theorem isDigitCode_iff (d : Nat) : isDigitCode d = true ↔ 48 ≤ d ∧ d ≤ 57 := by
  simp [isDigitCode, CCls.mem, digitC]

theorem wordCharB_of_digit (d : Nat) (h1 : 48 ≤ d) (h2 : d ≤ 57) : wordCharB d = true := by
  simp only [wordCharB, Bool.or_eq_true]
  left
  right
  simp [CCls.mem, digitC]
  omega

section Digit16Facts

theorem Digits16.get_digit (text : Txt) (H : Digits16 text) (q : Nat) (hq : q < 16) :
    ∃ c, text.get? q = some c ∧ 48 ≤ c ∧ c ≤ 57 := by
  rcases hg : text.get? q with _ | c
  · rw [List.get?_eq_none, H.len] at hg
    omega
  · refine ⟨c, rfl, ?_⟩
    have hmem := List.get?_mem hg
    have := (isDigitCode_iff c).mp (H.dig c hmem)
    exact this

theorem Digits16.get_none (text : Txt) (H : Digits16 text) (q : Nat) (hq : 16 ≤ q) :
    text.get? q = none := by
  rw [List.get?_eq_none, H.len]
  omega

theorem Digits16.wordAt_eq (text : Txt) (H : Digits16 text) (q : Nat) :
    wordAt text q = decide (q < 16) := by
  by_cases hq : q < 16
  · rcases H.get_digit text q hq with ⟨c, hg, h1, h2⟩
    rw [wordAt, hg]
    simp [wordCharB_of_digit c h1 h2, hq]
  · rw [wordAt, H.get_none text q (by omega)]
    simp [hq]

theorem Digits16.boundary_zero (text : Txt) (H : Digits16 text) :
    isWordBoundary text 0 = true := by
  rw [isWordBoundary, if_pos rfl, H.wordAt_eq text 0]
  rfl

theorem Digits16.boundary_sixteen (text : Txt) (H : Digits16 text) :
    isWordBoundary text 16 = true := by
  rw [isWordBoundary, if_neg (by omega), H.wordAt_eq text 15, H.wordAt_eq text 16]
  rfl

theorem Digits16.boundary_inner (text : Txt) (H : Digits16 text) (p : Nat)
    (h1 : 1 ≤ p) (h2 : p ≤ 15) : isWordBoundary text p = false := by
  rw [isWordBoundary, if_neg (by omega), H.wordAt_eq text (p - 1), H.wordAt_eq text p]
  rw [decide_eq_true (by omega : p - 1 < 16), decide_eq_true (by omega : p < 16)]
  rfl

end Digit16Facts

section SymbolicEnds

theorem ends_wordB_zero (text : Txt) (H : Digits16 text) :
    ends text .wordB 0 = [0] := by
  rw [ends, if_pos (H.boundary_zero text)]

theorem ends_wordB_sixteen (text : Txt) (H : Digits16 text) :
    ends text .wordB 16 = [16] := by
  rw [ends, if_pos (H.boundary_sixteen text)]

theorem ends_wordB_inner (text : Txt) (H : Digits16 text) (p : Nat)
    (h1 : 1 ≤ p) (h2 : p ≤ 15) : ends text .wordB p = [] := by
  rw [ends, if_neg]
  rw [H.boundary_inner text p h1 h2]
  simp

theorem ends_cls_all (text : Txt) (H : Digits16 text) (c : CCls)
    (hc : c.allDigitB = true) (q : Nat) :
    ends text (.cls c) q = if q < 16 then [q + 1] else [] := by
  by_cases hq : q < 16
  · rcases H.get_digit text q hq with ⟨d, hg, h1, h2⟩
    rw [ends, hg]
    dsimp only
    rw [if_pos (mem_of_allDigitB c hc d h1 h2), if_pos hq]
  · rw [ends, H.get_none text q (by omega), if_neg hq]

theorem ends_cls_no (text : Txt) (H : Digits16 text) (c : CCls)
    (hc : c.noDigitB = true) (q : Nat) : ends text (.cls c) q = [] := by
  by_cases hq : q < 16
  · rcases H.get_digit text q hq with ⟨d, hg, h1, h2⟩
    rw [ends, hg]
    dsimp only
    rw [if_neg]
    rw [not_mem_of_noDigitB c hc d h1 h2]
    simp
  · rw [ends, H.get_none text q (by omega)]

theorem ends_cls_head (text : Txt) (H : Digits16 text) (c : CCls)
    (hc : c.mem 52 = false) : ends text (.cls c) 0 = [] := by
  rw [ends, H.first]
  dsimp only
  rw [if_neg]
  rw [hc]
  simp

theorem ends_cls_head52 (text : Txt) (H : Digits16 text) (c : CCls)
    (hc : c.mem 52 = true) : ends text (.cls c) 0 = [1] := by
  rw [ends, H.first]
  dsimp only
  rw [if_pos hc]

theorem flatMap_pure_nat (l : List Nat) : l.flatMap (fun q => [q]) = l := by
  induction l with
  | nil => rfl
  | cons a l ih => simp [List.flatMap_cons, ih]

theorem flatMap_nil_fun (l : List Nat) (f : Nat → List Nat)
    (h : ∀ q, f q = []) : l.flatMap f = [] := by
  induction l with
  | nil => rfl
  | cons a l ih => simp [List.flatMap_cons, ih, h]

theorem ends_qm (text : Txt) (r : Regex) (p : Nat) :
    ends text (qm r) p = ends text r p ++ [p] := by
  show repB (ends text r) 1 0 p = _
  have h1 : repB (ends text r) 0 0 = fun q => [q] := by
    funext q
    simp [repB]
  show ((ends text r p).flatMap (repB (ends text r) 0 0)) ++ [p] = _
  rw [h1, flatMap_pure_nat]

theorem ends_qm_no (text : Txt) (H : Digits16 text) (c : CCls)
    (hc : c.noDigitB = true) (p : Nat) : ends text (qm (.cls c)) p = [p] := by
  rw [ends_qm, ends_cls_no text H c hc p]
  rfl

theorem seq_step (text : Txt) {a b : Regex} {p q : Nat}
    (h : ends text a p = [q]) : ends text (.seq a b) p = ends text b q := by
  show (ends text a p).flatMap (ends text b) = _
  rw [h]
  simp [List.flatMap_cons]

theorem seq_dead (text : Txt) {a : Regex} (b : Regex) {p : Nat}
    (h : ends text a p = []) : ends text (.seq a b) p = [] := by
  show (ends text a p).flatMap (ends text b) = []
  rw [h]
  rfl

theorem seq_dead_any (text : Txt) (a b : Regex) (p : Nat)
    (h : ∀ q, ends text b q = []) : ends text (.seq a b) p = [] := by
  show (ends text a p).flatMap (ends text b) = []
  exact flatMap_nil_fun _ _ h

theorem repB_nil (f : Nat → List Nat) (hf : ∀ q, f q = []) :
    ∀ h lo p, 1 ≤ lo → repB f h lo p = [] := by
  intro h
  induction h with
  | zero =>
    intro lo p hlo
    simp only [repB]
    rw [if_neg (by omega)]
  | succ h ih =>
    intro lo p hlo
    simp only [repB]
    rw [if_neg (by omega), hf]
    rfl

theorem ends_rep_dead (text : Txt) (r : Regex) (lo : Nat) (hi : Option Nat) (p : Nat)
    (hlo : 1 ≤ lo) (hr : ∀ q, ends text r q = []) :
    ends text (.rep r lo hi) p = [] := by
  rcases hi with _ | h
  · show (repB (ends text r) lo lo p).flatMap _ = []
    rw [repB_nil (ends text r) hr lo lo p hlo]
    rfl
  · show repB (ends text r) h lo p = []
    exact repB_nil (ends text r) hr h lo p hlo

theorem descList_append (b : Nat) : ∀ k, descList (b + 1) k ++ [b] = descList b (k + 1) := by
  intro k
  induction k with
  | zero => rfl
  | succ k ih =>
    show (b + 1 + k + 1) :: (descList (b + 1) k ++ [b]) = descList b (k + 2)
    rw [ih]
    show (b + 1 + k + 1) :: descList b (k + 1) = (b + (k + 1) + 1) :: descList b (k + 1)
    congr 1
    omega

theorem repB_digit_run (f : Nat → List Nat) (len : Nat)
    (hf : ∀ q, f q = if q < len then [q + 1] else []) :
    ∀ h lo p, lo ≤ h → p ≤ len → p + lo ≤ len →
      repB f h lo p = descList (p + lo) (min (p + h) len - (p + lo)) := by
  intro h
  induction h with
  | zero =>
    intro lo p hlo hp hpl
    have hlo0 : lo = 0 := by omega
    subst hlo0
    simp only [repB, if_pos rfl]
    have hm : min (p + 0) len = p := by omega
    rw [hm]
    have : p - (p + 0) = 0 := by omega
    rw [this]
    simp [descList]
  | succ h ih =>
    intro lo p hlo hp hpl
    rcases Nat.eq_zero_or_pos lo with hlo0 | hlopos
    · subst hlo0
      simp only [repB, if_pos rfl]
      by_cases hpe : p < len
      · rw [hf p, if_pos hpe]
        simp only [List.flatMap_cons, List.flatMap_nil, List.append_nil]
        rw [ih 0 (p + 1) (by omega) (by omega) (by omega)]
        simp only [Nat.add_zero]
        have hM : min (p + 1 + h) len = min (p + (h + 1)) len := by omega
        rw [hM]
        have hge : p + 1 ≤ min (p + (h + 1)) len := by omega
        rw [descList_append p (min (p + (h + 1)) len - (p + 1))]
        have harith : min (p + (h + 1)) len - (p + 1) + 1 = min (p + (h + 1)) len - p := by
          omega
        rw [harith]
        simp
      · rw [hf p, if_neg hpe]
        simp only [List.flatMap_nil, List.nil_append, Nat.add_zero]
        have hM : min (p + (h + 1)) len = p := by omega
        rw [hM]
        have hz : p - p = 0 := by omega
        rw [hz]
        simp [descList]
    · simp only [repB]
      rw [if_neg (by omega)]
      have hpe : p < len := by omega
      rw [hf p, if_pos hpe]
      simp only [List.flatMap_cons, List.flatMap_nil, List.append_nil]
      rw [ih (lo - 1) (p + 1) (by omega) (by omega) (by omega)]
      have h1 : p + 1 + (lo - 1) = p + lo := by omega
      have h2 : min (p + 1 + h) len = min (p + (h + 1)) len := by omega
      rw [h1, h2]

theorem ends_digit_run (text : Txt) (H : Digits16 text) (lo hi p : Nat)
    (h1 : lo ≤ hi) (h2 : p ≤ 16) (h3 : p + lo ≤ 16) :
    ends text (repN digitC lo hi) p =
      descList (p + lo) (min (p + hi) 16 - (p + lo)) := by
  show repB (ends text (.cls digitC)) hi lo p = _
  exact repB_digit_run (ends text (.cls digitC)) 16
    (fun q => ends_cls_all text H digitC (by decide) q) hi lo p h1 h2 h3

theorem ends_digit_exact (text : Txt) (H : Digits16 text) (k p e : Nat)
    (he : p + k = e) (h : p + k ≤ 16) :
    ends text (repN digitC k k) p = [e] := by
  rw [ends_digit_run text H k k p le_rfl (by omega) h]
  have hm : min (p + k) 16 = p + k := by omega
  rw [hm]
  have : p + k - (p + k) = 0 := by omega
  rw [this, he]
  rfl

end SymbolicEnds

section PatternEnds

theorem alt_dead (text : Txt) (a b : Regex) (p : Nat)
    (h1 : ends text a p = []) (h2 : ends text b p = []) :
    ends text (.alt a b) p = [] := by
  show ends text a p ++ ends text b p = []
  rw [h1, h2]
  rfl

theorem ends0_email (text : Txt) (H : Digits16 text) : ends text emailRe 0 = [] := by
  unfold emailRe seqs chC
  simp only [List.foldr_cons, List.foldr_nil]
  rw [seq_step text (ends_wordB_zero text H)]
  exact seq_dead_any text _ _ 0
    (fun q => seq_dead text _ (ends_cls_no text H (.one 64) (by decide) q))

theorem ends0_phoneUs (text : Txt) (H : Digits16 text) : ends text phoneUsRe 0 = [] := by
  unfold phoneUsRe seqs chC
  simp only [List.foldr_cons, List.foldr_nil]
  rw [seq_step text (ends_wordB_zero text H)]
  rw [seq_step text (ends_qm_no text H (.one 43) (by decide) 0)]
  have h49 : ends text (qm (.cls (.one 49))) 0 = [0] := by
    rw [ends_qm, ends_cls_head text H (.one 49) (by decide)]
    rfl
  rw [seq_step text h49]
  rw [seq_step text (ends_qm_no text H sepDotC (by decide) 0)]
  rw [seq_step text (ends_qm_no text H (.one 40) (by decide) 0)]
  rw [seq_step text (ends_digit_exact text H 3 0 3 (by omega) (by omega))]
  rw [seq_step text (ends_qm_no text H (.one 41) (by decide) 3)]
  rw [seq_step text (ends_qm_no text H sepDotC (by decide) 3)]
  rw [seq_step text (ends_digit_exact text H 3 3 6 (by omega) (by omega))]
  rw [seq_step text (ends_qm_no text H sepDotC (by decide) 6)]
  rw [seq_step text (ends_digit_exact text H 4 6 10 (by omega) (by omega))]
  exact seq_dead text _ (ends_wordB_inner text H 10 (by omega) (by omega))

theorem ends0_phoneIntl (text : Txt) (H : Digits16 text) :
    ends text phoneIntlRe 0 = [] := by
  unfold phoneIntlRe seqs chC
  simp only [List.foldr_cons, List.foldr_nil]
  rw [seq_step text (ends_wordB_zero text H)]
  exact seq_dead text _ (ends_cls_no text H (.one 43) (by decide) 0)

theorem ends0_phoneIl (text : Txt) (H : Digits16 text) : ends text phoneIlRe 0 = [] := by
  unfold phoneIlRe seqs chC
  simp only [List.foldr_cons, List.foldr_nil]
  rw [seq_step text (ends_wordB_zero text H)]
  exact seq_dead text _ (ends_cls_head text H (.one 48) (by decide))

theorem ends0_phoneIl2 (text : Txt) (H : Digits16 text) :
    ends text phoneIl2Re 0 = [] := by
  unfold phoneIl2Re seqs chC
  simp only [List.foldr_cons, List.foldr_nil]
  rw [seq_step text (ends_wordB_zero text H)]
  exact seq_dead text _ (ends_cls_no text H (.one 43) (by decide) 0)

theorem ends0_ssn (text : Txt) (H : Digits16 text) : ends text ssnRe 0 = [] := by
  unfold ssnRe seqs
  simp only [List.foldr_cons, List.foldr_nil]
  rw [seq_step text (ends_wordB_zero text H)]
  rw [seq_step text (ends_digit_exact text H 3 0 3 (by omega) (by omega))]
  rw [seq_step text (ends_qm_no text H sepC (by decide) 3)]
  rw [seq_step text (ends_digit_exact text H 2 3 5 (by omega) (by omega))]
  rw [seq_step text (ends_qm_no text H sepC (by decide) 5)]
  rw [seq_step text (ends_digit_exact text H 4 5 9 (by omega) (by omega))]
  exact seq_dead text _ (ends_wordB_inner text H 9 (by omega) (by omega))

theorem ends0_visa (text : Txt) (H : Digits16 text) : ends text visaRe 0 = [16] := by
  unfold visaRe seqs chC
  simp only [List.foldr_cons, List.foldr_nil]
  rw [seq_step text (ends_wordB_zero text H)]
  rw [seq_step text (ends_cls_head52 text H (.one 52) (by decide))]
  rw [seq_step text (ends_digit_exact text H 3 1 4 (by omega) (by omega))]
  rw [seq_step text (ends_qm_no text H sepC (by decide) 4)]
  rw [seq_step text (ends_digit_exact text H 4 4 8 (by omega) (by omega))]
  rw [seq_step text (ends_qm_no text H sepC (by decide) 8)]
  rw [seq_step text (ends_digit_exact text H 4 8 12 (by omega) (by omega))]
  rw [seq_step text (ends_qm_no text H sepC (by decide) 12)]
  rw [seq_step text (ends_digit_exact text H 4 12 16 (by omega) (by omega))]
  rw [seq_step text (ends_wordB_sixteen text H)]
  rfl

theorem ends0_mc (text : Txt) (H : Digits16 text) : ends text mcRe 0 = [] := by
  unfold mcRe seqs chC
  simp only [List.foldr_cons, List.foldr_nil]
  rw [seq_step text (ends_wordB_zero text H)]
  exact seq_dead text _ (ends_cls_head text H (.one 53) (by decide))

theorem ends0_amex (text : Txt) (H : Digits16 text) : ends text amexRe 0 = [] := by
  unfold amexRe seqs chC
  simp only [List.foldr_cons, List.foldr_nil]
  rw [seq_step text (ends_wordB_zero text H)]
  exact seq_dead text _ (ends_cls_head text H (.one 51) (by decide))

theorem ends0_cc16 (text : Txt) (H : Digits16 text) : ends text cc16Re 0 = [16] := by
  unfold cc16Re seqs
  simp only [List.foldr_cons, List.foldr_nil]
  rw [seq_step text (ends_wordB_zero text H)]
  rw [seq_step text (ends_digit_exact text H 4 0 4 (by omega) (by omega))]
  rw [seq_step text (ends_qm_no text H sepC (by decide) 4)]
  rw [seq_step text (ends_digit_exact text H 4 4 8 (by omega) (by omega))]
  rw [seq_step text (ends_qm_no text H sepC (by decide) 8)]
  rw [seq_step text (ends_digit_exact text H 4 8 12 (by omega) (by omega))]
  rw [seq_step text (ends_qm_no text H sepC (by decide) 12)]
  rw [seq_step text (ends_digit_exact text H 4 12 16 (by omega) (by omega))]
  rw [seq_step text (ends_wordB_sixteen text H)]
  rfl

theorem ends0_ipv4 (text : Txt) (H : Digits16 text) : ends text ipv4Re 0 = [] := by
  unfold ipv4Re seqs chC
  simp only [List.foldr_cons, List.foldr_nil]
  rw [seq_step text (ends_wordB_zero text H)]
  exact seq_dead text _ (ends_rep_dead text _ 3 (some 3) 0 (by omega)
    (fun q => seq_dead_any text octetRe _ q
      (fun q2 => ends_cls_no text H (.one 46) (by decide) q2)))

theorem ends0_ipv6 (text : Txt) (H : Digits16 text) : ends text ipv6Re 0 = [] := by
  unfold ipv6Re seqs chC
  simp only [List.foldr_cons, List.foldr_nil]
  rw [seq_step text (ends_wordB_zero text H)]
  exact seq_dead text _ (ends_rep_dead text _ 7 (some 7) 0 (by omega)
    (fun q => seq_dead_any text (repN hexC 1 4) _ q
      (fun q2 => ends_cls_no text H (.one 58) (by decide) q2)))

theorem ends0_dateIso (text : Txt) (H : Digits16 text) : ends text dateIsoRe 0 = [] := by
  unfold dateIsoRe seqs
  simp only [List.foldr_cons, List.foldr_nil]
  rw [seq_step text (ends_wordB_zero text H)]
  exact seq_dead_any text _ _ 0
    (fun q => seq_dead text _ (ends_cls_no text H dateSepC (by decide) q))

theorem ends0_dateUs (text : Txt) (H : Digits16 text) : ends text dateUsRe 0 = [] := by
  unfold dateUsRe seqs
  simp only [List.foldr_cons, List.foldr_nil]
  rw [seq_step text (ends_wordB_zero text H)]
  exact seq_dead_any text _ _ 0
    (fun q => seq_dead text _ (ends_cls_no text H dateSepC (by decide) q))

theorem ends0_dateWritten (text : Txt) (H : Digits16 text) :
    ends text dateWrittenRe 0 = [] := by
  unfold dateWrittenRe seqs
  simp only [List.foldr_cons, List.foldr_nil]
  rw [seq_step text (ends_wordB_zero text H)]
  apply seq_dead text
  unfold monthsRe
  simp only [List.foldl_cons, List.foldl_nil]
  repeat
    first
    | apply alt_dead text
    | exact seq_dead text _ (ends_cls_no text H _ (by decide) 0)

theorem ends0_passport (text : Txt) (H : Digits16 text) :
    ends text passportRe 0 = [] := by
  unfold passportRe seqs
  simp only [List.foldr_cons, List.foldr_nil]
  rw [seq_step text (ends_wordB_zero text H)]
  exact seq_dead text _ (ends_rep_dead text (.cls letterC) 1 (some 2) 0 (by omega)
    (fun q => ends_cls_no text H letterC (by decide) q))

theorem ends0_dl (text : Txt) (H : Digits16 text) : ends text dlRe 0 = [] := by
  unfold dlRe seqs
  simp only [List.foldr_cons, List.foldr_nil]
  rw [seq_step text (ends_wordB_zero text H)]
  exact seq_dead text _ (ends_rep_dead text (.cls letterC) 1 (some 2) 0 (by omega)
    (fun q => ends_cls_no text H letterC (by decide) q))

theorem ends0_iban (text : Txt) (H : Digits16 text) : ends text ibanRe 0 = [] := by
  unfold ibanRe seqs
  simp only [List.foldr_cons, List.foldr_nil]
  rw [seq_step text (ends_wordB_zero text H)]
  exact seq_dead text _ (ends_rep_dead text (.cls letterC) 2 (some 2) 0 (by omega)
    (fun q => ends_cls_no text H letterC (by decide) q))

theorem ends0_bank (text : Txt) (H : Digits16 text) : ends text bankNumRe 0 = [16] := by
  unfold bankNumRe seqs
  simp only [List.foldr_cons, List.foldr_nil]
  rw [seq_step text (ends_wordB_zero text H)]
  show (ends text (repN digitC 8 17) 0).flatMap (ends text (.seq .wordB .eps)) = [16]
  rw [ends_digit_run text H 8 17 0 (by omega) (by omega) (by omega)]
  rw [show descList (0 + 8) (min (0 + 17) 16 - (0 + 8)) =
    [16, 15, 14, 13, 12, 11, 10, 9, 8] from rfl]
  have h16 : ends text (.seq .wordB .eps) 16 = [16] := by
    rw [seq_step text (ends_wordB_sixteen text H)]
    rfl
  have hq : ∀ q, 1 ≤ q → q ≤ 15 → ends text (.seq .wordB .eps) q = [] :=
    fun q h1 h2 => seq_dead text _ (ends_wordB_inner text H q h1 h2)
  simp only [List.flatMap_cons, List.flatMap_nil, h16,
    hq 15 (by omega) (by omega), hq 14 (by omega) (by omega),
    hq 13 (by omega) (by omega), hq 12 (by omega) (by omega),
    hq 11 (by omega) (by omega), hq 10 (by omega) (by omega),
    hq 9 (by omega) (by omega), hq 8 (by omega) (by omega),
    List.append_nil, List.nil_append]

end PatternEnds

section ScanClosed

theorem scanPos_nil (f : Nat → List Nat) (len : Nat) :
    ∀ fuel p, (∀ q, p ≤ q → q ≤ len → f q = []) → scanPos f len fuel p = [] := by
  intro fuel
  induction fuel with
  | zero => intro p _; rfl
  | succ fuel ih =>
    intro p h
    rw [scanPos]
    by_cases hp : p ≤ len
    · rw [if_pos hp, h p le_rfl hp]
      exact ih (p + 1) (fun q h1 h2 => h q (by omega) h2)
    · rw [if_neg hp]

theorem scanPos_zero_step (f : Nat → List Nat) (len fuel : Nat)
    (hnil : ∀ q, 1 ≤ q → q ≤ len → f q = []) :
    scanPos f len (fuel + 1) 0 =
      match (f 0).head? with
      | some e => [(0, e)]
      | none => [] := by
  rw [scanPos, if_pos (Nat.zero_le len)]
  rcases hh : (f 0).head? with _ | e
  · exact scanPos_nil f len fuel 1 (fun q h1 h2 => hnil q h1 h2)
  · dsimp only
    have hpos : 1 ≤ (if 0 < e then e else 0 + 1) := by
      split <;> omega
    rw [scanPos_nil f len fuel _ (fun q h1 h2 => hnil q (le_trans hpos h1) h2)]

/-- The fully digit text admits a match attempt only at position 0: inside
the digit run a `\b`-anchored pattern sees no word boundary, and at the end
of the text it has no room to consume a character. -/
theorem finditer_closed (text : Txt) (r : Regex) (hlen : text.length = 16)
    (hnil : ∀ q, 1 ≤ q → q ≤ 16 → ends text r q = []) :
    finditer text r =
      match (ends text r 0).head? with
      | some e => [(0, e)]
      | none => [] := by
  unfold finditer
  rw [hlen]
  exact scanPos_zero_step (ends text r) 16 17 hnil

theorem ends_nil_of_minLen (text : Txt) (r : Regex) (p : Nat)
    (hp : p ≤ text.length) (h : text.length < p + r.minLen) :
    ends text r p = [] := by
  rw [List.eq_nil_iff_forall_not_mem]
  intro e he
  have := ends_bounds text r p e he hp
  omega

theorem ends_anchored_inner_nil (text : Txt) (H : Digits16 text) {rest : Regex}
    (hmin : 1 ≤ rest.minLen) (q : Nat) (h1 : 1 ≤ q) (h2 : q ≤ 16) :
    ends text (.seq .wordB rest) q = [] := by
  rcases Nat.lt_or_ge q 16 with h | h
  · exact seq_dead text rest (ends_wordB_inner text H q h1 (by omega))
  · have hq : q = 16 := by omega
    subst hq
    apply ends_nil_of_minLen text _ 16 (by rw [H.len])
    rw [H.len]
    show 16 < 16 + (0 + rest.minLen)
    omega

end ScanClosed

section PatternFinditer

theorem finditer_email (text : Txt) (H : Digits16 text) :
    finditer text emailRe = [] := by
  rw [finditer_closed text emailRe H.len
    (fun q h1 h2 => ends_anchored_inner_nil text H (by decide) q h1 h2)]
  rw [ends0_email text H]
  rfl

theorem finditer_phoneUs (text : Txt) (H : Digits16 text) :
    finditer text phoneUsRe = [] := by
  rw [finditer_closed text phoneUsRe H.len
    (fun q h1 h2 => ends_anchored_inner_nil text H (by decide) q h1 h2)]
  rw [ends0_phoneUs text H]
  rfl

theorem finditer_phoneIntl (text : Txt) (H : Digits16 text) :
    finditer text phoneIntlRe = [] := by
  rw [finditer_closed text phoneIntlRe H.len
    (fun q h1 h2 => ends_anchored_inner_nil text H (by decide) q h1 h2)]
  rw [ends0_phoneIntl text H]
  rfl

theorem finditer_phoneIl (text : Txt) (H : Digits16 text) :
    finditer text phoneIlRe = [] := by
  rw [finditer_closed text phoneIlRe H.len
    (fun q h1 h2 => ends_anchored_inner_nil text H (by decide) q h1 h2)]
  rw [ends0_phoneIl text H]
  rfl

theorem finditer_phoneIl2 (text : Txt) (H : Digits16 text) :
    finditer text phoneIl2Re = [] := by
  rw [finditer_closed text phoneIl2Re H.len
    (fun q h1 h2 => ends_anchored_inner_nil text H (by decide) q h1 h2)]
  rw [ends0_phoneIl2 text H]
  rfl

theorem finditer_ssn (text : Txt) (H : Digits16 text) :
    finditer text ssnRe = [] := by
  rw [finditer_closed text ssnRe H.len
    (fun q h1 h2 => ends_anchored_inner_nil text H (by decide) q h1 h2)]
  rw [ends0_ssn text H]
  rfl

theorem finditer_visa (text : Txt) (H : Digits16 text) :
    finditer text visaRe = [(0, 16)] := by
  rw [finditer_closed text visaRe H.len
    (fun q h1 h2 => ends_anchored_inner_nil text H (by decide) q h1 h2)]
  rw [ends0_visa text H]
  rfl

theorem finditer_mc (text : Txt) (H : Digits16 text) :
    finditer text mcRe = [] := by
  rw [finditer_closed text mcRe H.len
    (fun q h1 h2 => ends_anchored_inner_nil text H (by decide) q h1 h2)]
  rw [ends0_mc text H]
  rfl

theorem finditer_amex (text : Txt) (H : Digits16 text) :
    finditer text amexRe = [] := by
  rw [finditer_closed text amexRe H.len
    (fun q h1 h2 => ends_anchored_inner_nil text H (by decide) q h1 h2)]
  rw [ends0_amex text H]
  rfl

theorem finditer_cc16 (text : Txt) (H : Digits16 text) :
    finditer text cc16Re = [(0, 16)] := by
  rw [finditer_closed text cc16Re H.len
    (fun q h1 h2 => ends_anchored_inner_nil text H (by decide) q h1 h2)]
  rw [ends0_cc16 text H]
  rfl

theorem finditer_ipv4 (text : Txt) (H : Digits16 text) :
    finditer text ipv4Re = [] := by
  rw [finditer_closed text ipv4Re H.len
    (fun q h1 h2 => ends_anchored_inner_nil text H (by decide) q h1 h2)]
  rw [ends0_ipv4 text H]
  rfl

theorem finditer_ipv6 (text : Txt) (H : Digits16 text) :
    finditer text ipv6Re = [] := by
  rw [finditer_closed text ipv6Re H.len
    (fun q h1 h2 => ends_anchored_inner_nil text H (by decide) q h1 h2)]
  rw [ends0_ipv6 text H]
  rfl

theorem finditer_dateIso (text : Txt) (H : Digits16 text) :
    finditer text dateIsoRe = [] := by
  rw [finditer_closed text dateIsoRe H.len
    (fun q h1 h2 => ends_anchored_inner_nil text H (by decide) q h1 h2)]
  rw [ends0_dateIso text H]
  rfl

theorem finditer_dateUs (text : Txt) (H : Digits16 text) :
    finditer text dateUsRe = [] := by
  rw [finditer_closed text dateUsRe H.len
    (fun q h1 h2 => ends_anchored_inner_nil text H (by decide) q h1 h2)]
  rw [ends0_dateUs text H]
  rfl

theorem finditer_dateWritten (text : Txt) (H : Digits16 text) :
    finditer text dateWrittenRe = [] := by
  rw [finditer_closed text dateWrittenRe H.len
    (fun q h1 h2 => ends_anchored_inner_nil text H (by decide) q h1 h2)]
  rw [ends0_dateWritten text H]
  rfl

theorem finditer_passport (text : Txt) (H : Digits16 text) :
    finditer text passportRe = [] := by
  rw [finditer_closed text passportRe H.len
    (fun q h1 h2 => ends_anchored_inner_nil text H (by decide) q h1 h2)]
  rw [ends0_passport text H]
  rfl

theorem finditer_dl (text : Txt) (H : Digits16 text) :
    finditer text dlRe = [] := by
  rw [finditer_closed text dlRe H.len
    (fun q h1 h2 => ends_anchored_inner_nil text H (by decide) q h1 h2)]
  rw [ends0_dl text H]
  rfl

theorem finditer_iban (text : Txt) (H : Digits16 text) :
    finditer text ibanRe = [] := by
  rw [finditer_closed text ibanRe H.len
    (fun q h1 h2 => ends_anchored_inner_nil text H (by decide) q h1 h2)]
  rw [ends0_iban text H]
  rfl

theorem finditer_bank (text : Txt) (H : Digits16 text) :
    finditer text bankNumRe = [(0, 16)] := by
  rw [finditer_closed text bankNumRe H.len
    (fun q h1 h2 => ends_anchored_inner_nil text H (by decide) q h1 h2)]
  rw [ends0_bank text H]
  rfl

end PatternFinditer

/-- For every bare 16-digit Visa-shaped text standing alone, detection
returns exactly one credit-card match covering the whole text. -/
theorem detect_digits16 (text : Txt) (H : Digits16 text) :
    detectDefault text = [⟨PIIType.credit_card, text, 0, 16, 98⟩] := by
  have htake : List.take 16 text = text := by
    rw [← H.len]
    exact List.take_length text
  unfold detectDefault detectWith
  rw [show mkDetector none = PATTERNS from rfl]
  unfold candidatesFor PATTERNS
  simp only [List.flatMap_cons, List.flatMap_nil, List.map_cons, List.map_nil,
    finditer_email text H, finditer_phoneUs text H, finditer_phoneIntl text H,
    finditer_phoneIl text H, finditer_phoneIl2 text H, finditer_ssn text H,
    finditer_visa text H, finditer_mc text H, finditer_amex text H,
    finditer_cc16 text H, finditer_ipv4 text H, finditer_ipv6 text H,
    finditer_dateIso text H, finditer_dateUs text H, finditer_dateWritten text H,
    finditer_passport text H, finditer_dl text H, finditer_iban text H,
    finditer_bank text H,
    List.append_nil, List.nil_append]
  simp [resolveStep, spansOverlapB, List.insertionSort, List.orderedInsert,
    List.drop_zero, htake]

/-- Amended C5: for every text that is a bare 16-digit Visa-shaped number
standing alone (exactly sixteen digit codes, the first being `4`), detect
returns a single payment-card match covering the whole span (first
conjunct), while the generic bank-account digit-run rule also claims the
same span and is suppressed by the earlier-registered payment-card category
(second conjunct); but when a match of a still-earlier-registered category
(such as an email whose domain holds the boundary-delimited Visa run)
overlaps the span, that category wins instead and no payment-card match is
returned (third conjunct). -/
theorem visa_priority_amended (text : Txt) (H : Digits16 text) :
    detectDefault text = [⟨PIIType.credit_card, text, 0, 16, 98⟩] ∧
      finditer text bankNumRe = [(0, 16)] ∧
      detectDefault (codes ("a@4111111111111111.aa")) =
        [⟨PIIType.email, codes ("a@4111111111111111.aa"), 0, 21, 99⟩] :=
  ⟨detect_digits16 text H, finditer_bank text H, by decide⟩

/-- Witness for amended C5 at the concrete Visa number `4111111111111111`. -/
theorem visa_priority_amended_witness :
    detectDefault (codes ("4111111111111111")) =
      [⟨PIIType.credit_card, codes ("4111111111111111"), 0, 16, 98⟩] ∧
      finditer (codes ("4111111111111111")) bankNumRe = [(0, 16)] ∧
      detectDefault (codes ("a@4111111111111111.aa")) =
        [⟨PIIType.email, codes ("a@4111111111111111.aa"), 0, 21, 99⟩] :=
  visa_priority_amended (codes ("4111111111111111"))
    ⟨by decide, by decide, by decide⟩
